import Mathlib

/-!
Verification of the Mystery Protocol (`mystery_protocol.py`, `mystery_server.py`).

The Python sources are shallowly embedded:

* Characters are modelled by their ASCII code points (`Nat`), strings of
  secret characters by `List Nat`.
* A Python `dict` mapping characters to segment numbers is modelled as an
  association list `List (Nat × Nat)`; `dict.get(c, d)` is `dictGet`,
  `dict[c]` (which raises `KeyError` when absent) is `List.lookup`.
* BFV ciphertexts are modelled by the plaintext residues they decrypt to
  (scheme correctness of the external TenSEAL library is assumed): a scalar
  ciphertext is a `Nat` in `[0, 65537)`, a vector ciphertext a `List Nat`.
  Homomorphic operations act on residues modulo the plain modulus 65537,
  exactly as BFV plaintext arithmetic does.
* The external primitives SHA-256 (`hashlib`), canonical JSON serialization
  (`json.dumps(..., sort_keys=True)`) and the Reed-Solomon codec
  (`reedsolo.RSCodec`) are parameters of the embedded functions:
  `sha : String → List Nat` returns the 32 digest bytes (commitments are
  compared as digests, which is equivalent to comparing hex digests),
  `canonJson : List Mapping → String` the canonical serialization, and
  `rsEncode : List Nat → List Nat` / `rsDecode : Nat → List Nat → Option (List Nat)`
  the codec, where `rsDecode` returns `none` when `reedsolo` raises.
* The randomness drawn inside the Python functions (shuffles, salts, the
  prize, the blinder) is passed in as explicit arguments.
-/

/-- Plaintext modulus of the BFV contexts (`plain_modulus = 65537`). -/
def plainMod : Nat := 65537

/-- ASCII code points of
`string.ascii_letters + string.digits + string.punctuation + " "`,
the 95-character alphabet shared by `MappingGenerator` and `MysteryProtocol`. -/
def alphabetCodes : List Nat :=
  (List.range 26).map (· + 97) ++ (List.range 26).map (· + 65) ++
  (List.range 10).map (· + 48) ++ (List.range 15).map (· + 33) ++
  (List.range 7).map (· + 58) ++ (List.range 6).map (· + 91) ++
  (List.range 4).map (· + 123) ++ [32]

/-- A secret mapping (one position): a Python dict from characters to
segment numbers, as an association list. -/
abbrev Mapping := List (Nat × Nat)

/-- `dict.get(c, d)`: lookup with default. -/
def dictGet (m : Mapping) (c : Nat) (d : Nat) : Nat :=
  (m.lookup c).getD d

/-- Fuel-driven worker for `chunksOf` (structural recursion so that the
kernel can evaluate it; `fuel = l.length` always suffices since every step
drops at least one element). -/
def chunksOfAux (ps : Nat) : Nat → List α → List (List α)
  | 0, _ => []
  | _ + 1, [] => []
  | fuel + 1, x :: xs => (x :: xs).take ps :: chunksOfAux ps fuel ((x :: xs).drop ps)

/-- Python slicing `l[j:j+ps]` over `range(0, len(l), ps)`: cut a list into
contiguous chunks of size `ps` (the last chunk may be short).  For `ps = 0`
Python's `range` raises, so we return `[]`. -/
def chunksOf (ps : Nat) (l : List α) : List (List α) :=
  if ps = 0 then [] else chunksOfAux ps l.length l

/-- Build the Python dict comprehension
`{char: seg_num for seg_num, char_group in zip(segment_numbers, char_partitions) for char in char_group}`
as an association list (all keys we ever feed it are distinct, so
first-match lookup agrees with the Python dict). -/
def buildMappingDict (segmentNumbers : List Nat) (charPartitions : List (List Nat)) : Mapping :=
  ((segmentNumbers.zip charPartitions).map (fun p => p.2.map (fun c => (c, p.1)))).flatten

/-- `MappingGenerator.generate`, one loop iteration: the two `random.shuffle`
results are explicit arguments.  `partition_size = math.ceil(len(alphabet_shuffled)/num_segments)`. -/
def generateOneMapping (alphabetShuffled : List Nat) (segmentNumbers : List Nat)
    (numSegments : Nat) : Mapping :=
  let partitionSize := (alphabetShuffled.length + numSegments - 1) / numSegments
  buildMappingDict segmentNumbers (chunksOf partitionSize alphabetShuffled)

/-- `MappingGenerator.generate(length, num_segments)`: the per-position
shuffles are the explicit list `shuffles` (one pair of shuffled alphabet and
shuffled segment numbers per position, `length = shuffles.length`). -/
def MappingGenerator_generate (shuffles : List (List Nat × List Nat))
    (numSegments : Nat) : List Mapping :=
  shuffles.map (fun p => generateOneMapping p.1 p.2 numSegments)

/-- One freshly generated random mapping inside `extend_mapping_to_length`
(note the *floor* division `partition_size = len(alphabet_shuffled) // segments`,
unlike `MappingGenerator.generate`'s ceiling). -/
def extendOneMapping (alphabetShuffled : List Nat) (segmentNumbers : List Nat)
    (segments : Nat) : Mapping :=
  let partitionSize := alphabetShuffled.length / segments
  buildMappingDict segmentNumbers (chunksOf partitionSize alphabetShuffled)

/-- `extend_mapping_to_length(original_mapping, target_length, segments)`.
`shuffles i` supplies the two `random.shuffle` results used for appended
position `i`. -/
def extend_mapping_to_length (originalMapping : List Mapping) (targetLength : Nat)
    (segments : Nat) (shuffles : Nat → List Nat × List Nat) : List Mapping :=
  if originalMapping.length ≥ targetLength then originalMapping.take targetLength
  else
    originalMapping ++
      (List.range (targetLength - originalMapping.length)).map
        (fun k =>
          let p := shuffles (originalMapping.length + k)
          extendOneMapping p.1 p.2 segments)

/-- `char_to_idx.get(c, -1)`: index of a character in the alphabet, `-1` when
absent. -/
def char_to_idx (c : Nat) : Int :=
  match alphabetCodes.findIdx? (· == c) with
  | some i => (i : Int)
  | none => -1

/-- The one-hot vector `[1 if i == char_to_idx.get(c, -1) else 0 for i in range(95)]`. -/
def oneHot (c : Nat) : List Nat :=
  (List.range alphabetCodes.length).map (fun (i : Nat) => if (i : Int) = char_to_idx c then 1 else 0)

/-- `owner_register_data(owner_private_key, input_string)`: one encrypted
one-hot vector per character (ciphertexts modelled by their plaintext
residues; all entries are 0 or 1, hence already reduced). -/
def owner_register_data (s : List Nat) : List (List Nat) :=
  s.map oneHot

/-- BFV ciphertext–plaintext inner product `enc_s.dot(mapping_vec)`:
the residue of the inner product modulo the plain modulus. -/
def dotProd (v w : List Nat) : Nat :=
  ((v.zip w).foldl (fun acc p => acc + p.1 * p.2) 0) % plainMod

/-- Commitment package produced by `verifier_commit` (the commitment is the
SHA-256 digest of `salt + json.dumps(secret_mappings, sort_keys=True)`). -/
structure CommitmentPackage where
  commitment : List Nat
  salt : String
  secret_mappings : List Mapping
  password_hash_salt : String
deriving DecidableEq

/-- `verifier_commit(secret_mappings)`; the two random salts are arguments. -/
def verifier_commit (sha : String → List Nat) (canonJson : List Mapping → String)
    (salt pwSalt : String) (M : List Mapping) : CommitmentPackage :=
  { commitment := sha (salt ++ canonJson M)
    salt := salt
    secret_mappings := M
    password_hash_salt := pwSalt }

/-- Reveal package produced by `verifier_transform_data`. -/
structure RevealPackage where
  transformed_vectors : List Nat
  salt : String
  secret_mappings : List Mapping
  password_hash_salt : String
deriving DecidableEq

/-- `verifier_transform_data(owner_public_context, registered_data, commitment_package)`:
`none` models the `ValueError` raised on a length mismatch. -/
def verifier_transform_data (registered : List (List Nat))
    (cp : CommitmentPackage) : Option RevealPackage :=
  if registered.length ≠ cp.secret_mappings.length then none
  else
    some
      { transformed_vectors :=
          (registered.zip cp.secret_mappings).map
            (fun p => dotProd p.1 (alphabetCodes.map (fun c => dictGet p.2 c 0)))
        salt := cp.salt
        secret_mappings := cp.secret_mappings
        password_hash_salt := cp.password_hash_salt }

/-- `int.to_bytes(n, 'big')`: big-endian byte serialization into `n` bytes. -/
def toBytesBE : Nat → Nat → List Nat
  | 0, _ => []
  | n + 1, p => toBytesBE n (p / 256) ++ [p % 256]

/-- `int.from_bytes(l, 'big')`. -/
def fromBytesBE (l : List Nat) : Nat :=
  l.foldl (fun a b => a * 256 + b) 0

/-- Prize data produced by `generate_prize`. -/
structure PrizeDataOwner where
  encrypted_prize_chunks_for_owner : List Nat
  chunk_bits : Nat
  num_chunks : Nat
  rs_parity_bytes : Nat
  original_data_bytes : Nat
  original_prize_for_reference : Nat
deriving DecidableEq

/-- `generate_prize(owner_public_context)`: the random 256-bit prize `p` is an
argument; each Reed-Solomon encoded byte is encrypted for the owner
(ciphertexts modelled by their residues). -/
def generate_prize (rsEncode : List Nat → List Nat) (p : Nat) : PrizeDataOwner :=
  let prizeBytes := toBytesBE 32 p
  let encoded := rsEncode prizeBytes
  { encrypted_prize_chunks_for_owner := encoded.map (· % plainMod)
    chunk_bits := 8
    num_chunks := encoded.length
    rs_parity_bytes := 16
    original_data_bytes := 32
    original_prize_for_reference := p }

/-- The `prize_data` dictionary inside the final package (without the debug
fields, i.e. the default `include_debug_info=False`). -/
structure PrizeDataFinal where
  prize_chunks : List Nat
  password_hash_salt : String
  chunk_bits : Nat
  num_chunks : Nat
  rs_parity_bytes : Nat
deriving DecidableEq

/-- Final package produced by `owner_finalize_data`. -/
structure FinalPackage where
  sequence_data : List Nat
  prize_data : PrizeDataFinal
deriving DecidableEq

/-- `owner_finalize_data(owner_private_key, verifier_public_context, reveal_package, commitment, prize_data)`:
`none` models the `ValueError` raised on a commitment mismatch.  Decryption
of a residue is the identity; re-encryption under the verifier's context
reduces modulo the plain modulus. -/
def owner_finalize_data (sha : String → List Nat) (canonJson : List Mapping → String)
    (reveal : RevealPackage) (commitment : List Nat)
    (prize : PrizeDataOwner) : Option FinalPackage :=
  let recomputed := sha (reveal.salt ++ canonJson reveal.secret_mappings)
  if recomputed ≠ commitment then none
  else
    let passwordSequence : List Nat := reveal.transformed_vectors
    let passwordStr := String.intercalate "," (passwordSequence.map toString)
    let hashBytes := sha (reveal.password_hash_salt ++ passwordStr)
    let protectedChunks :=
      prize.encrypted_prize_chunks_for_owner.enum.map
        (fun p => p.2 ^^^ hashBytes.getD (p.1 % hashBytes.length) 0)
    some
      { sequence_data := reveal.transformed_vectors.map (· % plainMod)
        prize_data :=
          { prize_chunks := protectedChunks.map (· % plainMod)
            password_hash_salt := reveal.password_hash_salt
            chunk_bits := prize.chunk_bits
            num_chunks := prize.num_chunks
            rs_parity_bytes := prize.rs_parity_bytes } }

/-- The loop of `get_correct_sequence`: `i` is the `enumerate` index; a
position beyond the mapping length is skipped (with a warning); a character
absent from its position's mapping raises `KeyError`, modelled by `none`. -/
def correctSeqGo (M : List Mapping) : Nat → List Nat → Option (List Nat)
  | _, [] => some []
  | i, c :: rest =>
    if i < M.length then
      match (M.getD i []).lookup c, correctSeqGo M (i + 1) rest with
      | some v, some tl => some (v :: tl)
      | _, _ => none
    else correctSeqGo M (i + 1) rest

/-- `get_correct_sequence(secret_mappings, input_string)`. -/
def get_correct_sequence (M : List Mapping) (s : List Nat) : Option (List Nat) :=
  correctSeqGo M 0 s

/-- The blinded sum-of-squares loop of `verifier_verify`: each homomorphic
operation (subtract a plaintext, square, accumulate) reduces modulo the
plain modulus; candidate positions beyond `len(target_sequence)` count as 0. -/
def sumOfSquares (sequenceData : List Nat) (target : List Int) : Nat :=
  sequenceData.enum.foldl
    (fun acc p =>
      let diff := (((p.2 : Int) - target.getD p.1 0).emod plainMod).toNat
      (acc + diff * diff % plainMod) % plainMod)
    0

/-- The password-hash keystream computed inside `verifier_verify`:
`hashlib.sha256((password_hash_salt + ",".join(map(str, target_sequence))).encode())`.
Note that *every* entry of `target_sequence` enters the joined string. -/
def verifyHashBytes (sha : String → List Nat) (pkg : FinalPackage)
    (target : List Int) : List Nat :=
  sha (pkg.prize_data.password_hash_salt ++ String.intercalate "," (target.map toString))

/-- The unprotection loop of `verifier_verify`: decrypt each prize chunk and
XOR it with the keystream byte for its index. -/
def verifyUnprotectedChunks (sha : String → List Nat) (pkg : FinalPackage)
    (target : List Int) : List Nat :=
  pkg.prize_data.prize_chunks.enum.map
    (fun q => q.2 ^^^ (verifyHashBytes sha pkg target).getD
      (q.1 % (verifyHashBytes sha pkg target).length) 0)

/-- `verifier_verify(verifier_private_key, final_package, target_sequence)`:
the random blinder (drawn from `{1..plain_modulus-1}`) is an argument.
`rsDecode parity bytes = none` models `reedsolo` raising inside the final
`try` block; a chunk value `≥ 256` likewise raises (in `bytes(...)`) and is
caught by the same handler, returning `(False, 0)`. -/
def verifier_verify (sha : String → List Nat) (rsDecode : Nat → List Nat → Option (List Nat))
    (pkg : FinalPackage) (target : List Int) (blinder : Nat) : Bool × Nat :=
  let total := sumOfSquares pkg.sequence_data target
  let decryptedLockedSum := total * blinder % plainMod
  if decryptedLockedSum ≠ 0 then (false, 0)
  else
    let decryptedChunks := verifyUnprotectedChunks sha pkg target
    if decryptedChunks.all (· < 256) then
      match rsDecode pkg.prize_data.rs_parity_bytes decryptedChunks with
      | some decodedBytes => (true, fromBytesBE decodedBytes)
      | none => (false, 0)
    else (false, 0)











































































































theorem chunksOfAux_congr (ps : Nat) (hps : ps ≠ 0) : ∀ (f1 f2 : Nat) (l : List α),
    l.length ≤ f1 → l.length ≤ f2 → chunksOfAux ps f1 l = chunksOfAux ps f2 l := by
  intro f1
  induction f1 with
  | zero =>
    intro f2 l h1 _
    have : l = [] := List.eq_nil_of_length_eq_zero (Nat.le_zero.mp h1)
    subst this
    cases f2 <;> rfl
  | succ f1 ih =>
    intro f2 l h1 h2
    match f2, l with
    | 0, l =>
      have : l = [] := List.eq_nil_of_length_eq_zero (Nat.le_zero.mp h2)
      subst this
      rfl
    | f2 + 1, [] => rfl
    | f2 + 1, x :: xs =>
      simp only [chunksOfAux]
      congr 1
      apply ih
      · simp only [List.length_drop, List.length_cons]
        simp only [List.length_cons] at h1
        have := Nat.pos_of_ne_zero hps
        omega
      · simp only [List.length_drop, List.length_cons]
        simp only [List.length_cons] at h2
        have := Nat.pos_of_ne_zero hps
        omega



































































































































































































/-!
## Server (`mystery_server.py`)

The session store is modelled as an explicit state record; the SQLAlchemy
tables become lists of records, primary keys are drawn from a counter.
Timestamps are seconds as `Int` (`timedelta(hours=1)` is 3600).  The
`file_hash` and `mapping_sequence_hash` columns hold the SHA-256 values the
endpoints compute from the uploaded bytes and the canonical mapping JSON;
the state machine carries them as data.  Base64 decoding of the verifier
key always succeeds in the model (the claims only concern the checks before
it and the recording after it).
-/

/-- A row of `challenge_data_files`. -/
structure FileRec where
  fid : Nat
  user_id : Nat
  key_name : Nat
  key_index : Int
  file_hash : Nat
  mapping_sequence_hash : Nat
  unencrypted_mapping : List Mapping
  challenge_package : FinalPackage
  is_used : Bool
deriving DecidableEq

/-- A row of `authentication_sessions`. -/
structure SessionRec where
  sid : Nat
  session_token : Nat
  data_file_id : Nat
  user_id : Nat
  mapping_sequence_hash : Nat
  expires_at : Int
  is_verified : Bool
  verification_attempts : Nat
  max_attempts : Nat
deriving DecidableEq

/-- A row of `verification_attempts`. -/
structure AttemptRec where
  session_id : Nat
  user_id : Nat
  was_successful : Bool
  attempted_at : Int
deriving DecidableEq

/-- The whole store. -/
structure ServerState where
  files : List FileRec
  sessions : List SessionRec
  attempts : List AttemptRec
  nextId : Nat
deriving DecidableEq

/-- `VERIFICATION_ATTEMPTS_PER_HOUR_PER_CHALLENGE = 20`. -/
def attemptsPerHour : Nat := 20

/-- `is_session_valid(session)`. -/
def is_session_valid (s : SessionRec) (now : Int) : Bool :=
  now < s.expires_at && s.verification_attempts < s.max_attempts && !s.is_verified

/-- `count_recent_verification_attempts(user_id, hours=1)`: failed attempts
of the user in the last hour. -/
def count_recent_verification_attempts (st : ServerState) (uid : Nat) (now : Int) : Nat :=
  (st.attempts.filter
    (fun a => a.user_id == uid && decide (now - 3600 ≤ a.attempted_at) && a.was_successful == false)).length

/-- `is_rate_limited(user_id)`. -/
def is_rate_limited (st : ServerState) (uid : Nat) (now : Int) : Bool :=
  attemptsPerHour ≤ count_recent_verification_attempts st uid now

/-- Result of `POST /submit_challenge_data`. -/
inductive SubmitResult
  | duplicateFile
  | duplicateMapping
  | accepted
deriving DecidableEq

/-- `submit_challenge_data`: dedup on both hashes, extend the mapping to 64
positions, insert the file row. -/
def submit_challenge_data (st : ServerState) (uid keyName : Nat) (keyIndex : Int)
    (fileHash mappingHash : Nat) (rawMapping : List Mapping) (segments : Nat)
    (shuffles : Nat → List Nat × List Nat) (pkg : FinalPackage) :
    SubmitResult × ServerState :=
  if st.files.any (fun f => f.file_hash == fileHash) then (.duplicateFile, st)
  else if st.files.any (fun f => f.mapping_sequence_hash == mappingHash) then
    (.duplicateMapping, st)
  else
    (.accepted,
      { st with
          files := st.files ++
            [{ fid := st.nextId
               user_id := uid
               key_name := keyName
               key_index := keyIndex
               file_hash := fileHash
               mapping_sequence_hash := mappingHash
               unencrypted_mapping := extend_mapping_to_length rawMapping 64 segments shuffles
               challenge_package := pkg
               is_used := false }]
          nextId := st.nextId + 1 })

/-- One step of the minimum-`key_index` scan behind `ORDER BY key_index ASC
... first()`: keep the earlier row on ties. -/
def pickStep (best : Option FileRec) (g : FileRec) : Option FileRec :=
  match best with
  | none => some g
  | some b => if g.key_index < b.key_index then some g else best

/-- The query
`ChallengeDataFile.query.filter_by(user_id, key_name, is_used=False).order_by(key_index.asc()).first()`:
the first row with minimal `key_index` among the matching unused rows. -/
def selectUnusedFile (files : List FileRec) (uid keyName : Nat) : Option FileRec :=
  (files.filter (fun f => f.user_id == uid && f.key_name == keyName && !f.is_used)).foldl
    pickStep none

/-- Result of `POST /get_authentication_challenge`. -/
inductive ChallengeResult
  | noPackage
  | issued (sessionToken : Nat) (mapping : List Mapping) (fid : Nat) (keyIndex : Int)
      (expiresAt : Int)
deriving DecidableEq

/-- `get_authentication_challenge`: select the lowest-`key_index` unused file,
create a session (the random token is an argument).  The selected file is
*not* marked used. -/
def get_authentication_challenge (st : ServerState) (uid keyName : Nat)
    (timeoutMinutes : Int) (now : Int) (token : Nat) : ChallengeResult × ServerState :=
  match selectUnusedFile st.files uid keyName with
  | none => (.noPackage, st)
  | some f =>
      let expiresAt := now + timeoutMinutes * 60
      let sess : SessionRec :=
        { sid := st.nextId
          session_token := token
          data_file_id := f.fid
          user_id := f.user_id
          mapping_sequence_hash := f.mapping_sequence_hash
          expires_at := expiresAt
          is_verified := false
          verification_attempts := 0
          max_attempts := 3 }
      (.issued token f.unencrypted_mapping f.fid f.key_index expiresAt,
        { st with sessions := st.sessions ++ [sess], nextId := st.nextId + 1 })

/-- `AuthenticationSession.query.filter_by(session_token=...).first()`. -/
def findSession (st : ServerState) (token : Nat) : Option SessionRec :=
  st.sessions.find? (fun s => s.session_token == token)

/-- The SQL join checking for a prior successful attempt on sessions with the
given `mapping_sequence_hash`. -/
def existsSuccessForHash (st : ServerState) (h : Nat) : Bool :=
  st.attempts.any (fun a =>
    a.was_successful &&
      st.sessions.any (fun s => s.sid == a.session_id && s.mapping_sequence_hash == h))

/-- Result of `POST /verify_solution`. -/
inductive VerifyResult
  | unknownSession
  | sessionClosed
  | rateLimited
  | alreadyUnlocked
  | serverError
  | outcome (is_match : Bool) (prize_value : Nat)
deriving DecidableEq

/-- The per-row session update of `verify_solution`'s transaction: increment
`verification_attempts` and, on a match, set `is_verified`. -/
def updateSessionOnAttempt (sessSid : Nat) (isMatch : Bool) (s : SessionRec) : SessionRec :=
  if s.sid == sessSid then
    let s1 := { s with verification_attempts := s.verification_attempts + 1 }
    if isMatch then { s1 with is_verified := true } else s1
  else s

/-- `data_file.is_used = True` on the matched file. -/
def markFileUsed (fid : Nat) (g : FileRec) : FileRec :=
  if g.fid == fid then { g with is_used := true } else g

/-- `verify_solution`: the checks in source order (session lookup, session
validity, hourly rate limit, single-unlock), then the protocol verification
and the transactional recording of the attempt. -/
def verify_solution (sha : String → List Nat) (rsDecode : Nat → List Nat → Option (List Nat))
    (st : ServerState) (token : Nat) (target : List Int) (blinder : Nat) (now : Int) :
    VerifyResult × ServerState :=
  match findSession st token with
  | none => (.unknownSession, st)
  | some sess =>
    if ¬ is_session_valid sess now then (.sessionClosed, st)
    else if is_rate_limited st sess.user_id now then (.rateLimited, st)
    else if existsSuccessForHash st sess.mapping_sequence_hash then (.alreadyUnlocked, st)
    else
      match st.files.find? (fun f => f.fid == sess.data_file_id) with
      | none => (.serverError, st)
      | some f =>
        let r := verifier_verify sha rsDecode f.challenge_package target blinder
        let attempt : AttemptRec :=
          { session_id := sess.sid
            user_id := sess.user_id
            was_successful := r.1
            attempted_at := now }
        let sessions' := st.sessions.map (updateSessionOnAttempt sess.sid r.1)
        let files' :=
          if r.1 then st.files.map (markFileUsed f.fid)
          else st.files
        (.outcome r.1 r.2,
          { st with attempts := st.attempts ++ [attempt], sessions := sessions', files := files' })

/-- The initial (empty) store. -/
def initialState : ServerState :=
  { files := [], sessions := [], attempts := [], nextId := 0 }

/-- Store states reachable through the three mutating endpoints. -/
inductive Reachable : ServerState → Prop
  | init : Reachable initialState
  | submit {st} (uid keyName : Nat) (keyIndex : Int) (fileHash mappingHash : Nat)
      (rawMapping : List Mapping) (segments : Nat) (shuffles : Nat → List Nat × List Nat)
      (pkg : FinalPackage) :
      Reachable st →
      Reachable (submit_challenge_data st uid keyName keyIndex fileHash mappingHash
        rawMapping segments shuffles pkg).2
  | challenge {st} (uid keyName : Nat) (timeoutMinutes now : Int) (token : Nat) :
      Reachable st →
      Reachable (get_authentication_challenge st uid keyName timeoutMinutes now token).2
  | verify {st} (sha : String → List Nat) (rsDecode : Nat → List Nat → Option (List Nat))
      (token : Nat) (target : List Int) (blinder : Nat) (now : Int) :
      Reachable st →
      Reachable (verify_solution sha rsDecode st token target blinder now).2

/-!
## Supporting lemmas
-/

theorem lookup_map_const (c n : Nat) : ∀ (ch : List Nat),
    (ch.map (fun c0 => (c0, n))).lookup c = if c ∈ ch then some n else none := by
  intro ch
  induction ch with
  | nil => simp
  | cons x xs ih =>
    by_cases hx : c = x
    · subst hx; simp [List.lookup]
    · have hb : (c == x) = false := by simp [hx]
      simp only [List.map_cons, List.lookup, hb, ih, List.mem_cons]
      simp [hx]

theorem lookup_append (c : Nat) : ∀ (l₁ l₂ : Mapping),
    (l₁ ++ l₂).lookup c = (l₁.lookup c).or (l₂.lookup c) := by
  intro l₁ l₂
  induction l₁ with
  | nil => simp
  | cons x xs ih =>
    by_cases hx : c = x.1
    · simp [List.lookup, hx]
    · have hb : (c == x.1) = false := by simp [hx]
      simp [List.lookup, hb, ih]

theorem chunksOf_nil (ps : Nat) : chunksOf ps ([] : List α) = [] := by
  rw [chunksOf]
  split <;> rfl

theorem chunksOf_cons (ps : Nat) (hps : ps ≠ 0) (x : α) (xs : List α) :
    chunksOf ps (x :: xs) = (x :: xs).take ps :: chunksOf ps ((x :: xs).drop ps) := by
  rw [chunksOf, chunksOf, if_neg hps, if_neg hps]
  simp only [List.length_cons, chunksOfAux]
  congr 1
  apply chunksOfAux_congr ps hps
  · simp only [List.length_drop, List.length_cons]
    have := Nat.pos_of_ne_zero hps
    omega
  · exact le_rfl

theorem chunksOf_flatten (ps : Nat) (hps : ps ≠ 0) (l : List α) :
    (chunksOf ps l).flatten = l := by
  have H : ∀ (n : Nat) (l : List α), l.length ≤ n → (chunksOf ps l).flatten = l := by
    intro n
    induction n with
    | zero =>
      intro l hl
      have : l = [] := List.eq_nil_of_length_eq_zero (Nat.le_zero.mp hl)
      subst this
      simp [chunksOf_nil]
    | succ n ih =>
      intro l hl
      match l with
      | [] => simp [chunksOf_nil]
      | x :: xs =>
        rw [chunksOf_cons ps hps, List.flatten_cons, ih]
        · exact List.take_append_drop ps (x :: xs)
        · have hpos : 0 < ps := Nat.pos_of_ne_zero hps
          simp only [List.length_drop, List.length_cons]
          simp only [List.length_cons] at hl
          omega
  exact H l.length l le_rfl

theorem chunksOf_length (ps : Nat) (hps : ps ≠ 0) (l : List α) :
    (chunksOf ps l).length = (l.length + ps - 1) / ps := by
  have hpos : 0 < ps := Nat.pos_of_ne_zero hps
  have key : ∀ m : Nat, 1 ≤ m → 1 + (m - ps + ps - 1) / ps = (m + ps - 1) / ps := by
    intro m hm
    rcases Nat.le_total m ps with hc | hc
    · have h4 : m - ps + ps - 1 = ps - 1 := by omega
      have h2 : (ps - 1) / ps = 0 := Nat.div_eq_of_lt (by omega)
      have h3 : (m + ps - 1) / ps = 1 := by
        apply Nat.div_eq_of_lt_le <;> omega
      rw [h4, h2, h3]
    · have h1 : m - ps + ps - 1 = m - 1 := by omega
      have h2 : m + ps - 1 = m - 1 + ps := by omega
      rw [h1, h2, Nat.add_div_right _ hpos]
      omega
  have H : ∀ (n : Nat) (l : List α), l.length ≤ n →
      (chunksOf ps l).length = (l.length + ps - 1) / ps := by
    intro n
    induction n with
    | zero =>
      intro l hl
      have : l = [] := List.eq_nil_of_length_eq_zero (Nat.le_zero.mp hl)
      subst this
      simp only [chunksOf_nil, List.length_nil, Nat.zero_add]
      exact (Nat.div_eq_of_lt (by omega)).symm
    | succ n ih =>
      intro l hl
      match l with
      | [] =>
        simp only [chunksOf_nil, List.length_nil, Nat.zero_add]
        exact (Nat.div_eq_of_lt (by omega)).symm
      | x :: xs =>
        rw [chunksOf_cons ps hps, List.length_cons, ih]
        · simp only [List.length_drop, List.length_cons]
          have := key (xs.length + 1) (by omega)
          omega
        · simp only [List.length_drop, List.length_cons]
          simp only [List.length_cons] at hl
          omega
  exact H l.length l le_rfl

theorem lookup_buildMappingDict {c : Nat} :
    ∀ (chunks : List (List Nat)) (segNums : List Nat),
    c ∈ chunks.flatten → chunks.length ≤ segNums.length →
    ∃ v, (buildMappingDict segNums chunks).lookup c = some v ∧ v ∈ segNums := by
  intro chunks
  induction chunks with
  | nil => intro segNums hc; simp at hc
  | cons ch chs ih =>
    intro segNums hc hlen
    match segNums with
    | [] => simp at hlen
    | n :: ns =>
      have hsplit : buildMappingDict (n :: ns) (ch :: chs) =
          (ch.map (fun c0 => (c0, n))) ++ buildMappingDict ns chs := by
        simp [buildMappingDict]
      rw [hsplit, lookup_append]
      by_cases hch : c ∈ ch
      · refine ⟨n, ?_, List.mem_cons_self n ns⟩
        rw [lookup_map_const, if_pos hch]
        rfl
      · rw [lookup_map_const, if_neg hch]
        have hc' : c ∈ chs.flatten := by
          have hx := hc
          rw [List.flatten_cons, List.mem_append] at hx
          rcases hx with h | h
          · exact absurd h hch
          · exact h
        obtain ⟨v, hv, hvmem⟩ := ih ns hc' (by simpa using hlen)
        exact ⟨v, by simp [hv], List.mem_cons_of_mem n hvmem⟩

theorem ceil_chunks_le (n S : Nat) (hS : 0 < S) (hn : 0 < n) :
    (n + (n + S - 1) / S - 1) / ((n + S - 1) / S) ≤ S := by
  have hps : 0 < (n + S - 1) / S := Nat.div_pos (by omega) hS
  have hdm : S * ((n + S - 1) / S) + (n + S - 1) % S = n + S - 1 := Nat.div_add_mod _ _
  have hm : (n + S - 1) % S < S := Nat.mod_lt _ hS
  have key : n ≤ ((n + S - 1) / S) * S := by
    rw [Nat.mul_comm]
    omega
  rw [Nat.div_le_iff_le_mul_add_pred hps]
  omega

theorem generateOneMapping_total {shuffled segNums : List Nat} {S : Nat}
    (hsh : shuffled.Perm alphabetCodes) (hlen : segNums.length = S) (hS : 0 < S)
    {c : Nat} (hc : c ∈ alphabetCodes) :
    ∃ v, (generateOneMapping shuffled segNums S).lookup c = some v ∧ v ∈ segNums := by
  have hlen95 : shuffled.length = 95 := by
    rw [hsh.length_eq]
    decide
  have hn : 0 < shuffled.length := by omega
  have hps : 0 < (shuffled.length + S - 1) / S := Nat.div_pos (by omega) hS
  apply lookup_buildMappingDict
  · rw [chunksOf_flatten _ (Nat.pos_iff_ne_zero.mp hps)]
    exact hsh.mem_iff.mpr hc
  · rw [chunksOf_length _ (Nat.pos_iff_ne_zero.mp hps), hlen]
    exact ceil_chunks_le shuffled.length S hS hn

theorem delta_zip_foldl (i : Nat) :
    ∀ (b : List Nat) (k acc : Nat),
    (((List.range' k b.length).map (fun j => if j = i then 1 else 0)).zip b).foldl
      (fun acc p => acc + p.1 * p.2) acc
    = acc + (if k ≤ i ∧ i < k + b.length then b.getD (i - k) 0 else 0) := by
  intro b
  induction b with
  | nil =>
    intro k acc
    simp
  | cons x xs ih =>
    intro k acc
    simp only [List.length_cons, List.range'_succ, List.map_cons, List.zip_cons_cons,
      List.foldl_cons]
    rw [ih]
    by_cases hk : k = i
    · subst hk
      have h1 : ¬(k + 1 ≤ k ∧ k < k + 1 + xs.length) := by omega
      rw [if_neg h1, if_pos (by omega : k ≤ k ∧ k < k + (xs.length + 1)), if_pos rfl]
      simp
    · rw [if_neg hk]
      by_cases hki : k + 1 ≤ i ∧ i < k + 1 + xs.length
      · rw [if_pos hki, if_pos (by omega : k ≤ i ∧ i < k + (xs.length + 1))]
        have h2 : i - k = (i - (k + 1)) + 1 := by omega
        rw [h2, List.getD_cons_succ]
        simp
      · have h3 : ¬(k ≤ i ∧ i < k + (xs.length + 1)) := by omega
        rw [if_neg hki, if_neg h3]
        simp

theorem alphabet_length : alphabetCodes.length = 95 := by decide

theorem alphabet_findIdx (c : Nat) (hc : c ∈ alphabetCodes) :
    ∃ i, alphabetCodes.findIdx? (· == c) = some i ∧ i < 95 ∧ alphabetCodes.getD i 0 = c := by
  have hsome : (alphabetCodes.findIdx? (· == c)).isSome := by
    rw [List.findIdx?_isSome]
    exact List.any_eq_true.mpr ⟨c, hc, by simp⟩
  obtain ⟨i, hi⟩ := Option.isSome_iff_exists.mp hsome
  obtain ⟨hlt, hp, -⟩ := List.findIdx?_eq_some_iff_getElem.mp hi
  refine ⟨i, hi, by simpa [alphabet_length] using hlt, ?_⟩
  rw [List.getD_eq_getElem _ _ hlt]
  exact eq_of_beq hp

theorem dotProd_oneHot {c : Nat} (hc : c ∈ alphabetCodes) (w : Nat → Nat) :
    dotProd (oneHot c) (alphabetCodes.map w) = w c % plainMod := by
  obtain ⟨i, hfind, hlt, hget⟩ := alphabet_findIdx c hc
  have hlen : (alphabetCodes.map w).length = 95 := by
    rw [List.length_map, alphabet_length]
  have h1 : oneHot c =
      (List.range' 0 (alphabetCodes.map w).length).map (fun j => if j = i then 1 else 0) := by
    rw [oneHot, char_to_idx, hfind, alphabet_length, hlen, List.range_eq_range']
    apply List.map_congr_left
    intro j _
    by_cases hj : j = i
    · simp [hj]
    · have : ¬((j : Int) = (i : Int)) := by exact_mod_cast hj
      simp [hj, this]
  rw [dotProd, h1, delta_zip_foldl i (alphabetCodes.map w) 0 0]
  have hcond : 0 ≤ i ∧ i < 0 + (alphabetCodes.map w).length := by omega
  rw [if_pos hcond, Nat.zero_add, Nat.sub_zero]
  have hlt' : i < alphabetCodes.length := by
    rw [alphabet_length]; exact hlt
  rw [List.getD_eq_getElem _ _ (by omega : i < (alphabetCodes.map w).length),
    List.getElem_map]
  rw [List.getD_eq_getElem _ _ hlt'] at hget
  rw [hget]

theorem correctSeqGo_some (M : List Mapping) :
    ∀ (s : List Nat) (i : Nat),
    i + s.length ≤ M.length →
    (∀ j, j < s.length → ((M.getD (i + j) []).lookup (s.getD j 0)).isSome) →
    correctSeqGo M i s =
      some ((List.range s.length).map
        (fun j => ((M.getD (i + j) []).lookup (s.getD j 0)).getD 0)) := by
  intro s
  induction s with
  | nil => intro i _ _; simp [correctSeqGo]
  | cons c rest ih =>
    intro i hle hsome
    have hi : i < M.length := by
      simp only [List.length_cons] at hle
      omega
    have h0 := hsome 0 (by simp)
    simp only [Nat.add_zero, List.getD_cons_zero] at h0
    obtain ⟨v, hv⟩ := Option.isSome_iff_exists.mp h0
    have htl := ih (i + 1) (by simp only [List.length_cons] at hle; omega)
      (fun j hj => by
        have hx := hsome (j + 1) (by simpa using Nat.succ_lt_succ hj)
        simp only [List.getD_cons_succ] at hx
        have harith : i + (j + 1) = i + 1 + j := by omega
        rw [harith] at hx
        exact hx)
    simp only [correctSeqGo, if_pos hi, hv, htl]
    simp only [List.length_cons, List.range_succ_eq_map, List.map_cons, List.map_map]
    congr 1
    congr 1
    · simp only [Nat.add_zero, List.getD_cons_zero]
      rw [hv]
      rfl
    · apply List.map_congr_left
      intro j _
      simp only [Function.comp_apply, Nat.succ_eq_add_one, List.getD_cons_succ]
      have harr : i + 1 + j = i + (j + 1) := by omega
      rw [harr]

theorem plainMod_eq : plainMod = 65537 := rfl

theorem sumOfSquares_foldl_lt (target : List Int) :
    ∀ (l : List (Nat × Nat)) (acc : Nat), acc < plainMod →
    l.foldl
      (fun acc p =>
        let diff := (((p.2 : Int) - target.getD p.1 0).emod plainMod).toNat
        (acc + diff * diff % plainMod) % plainMod) acc < plainMod := by
  intro l
  induction l with
  | nil => intro acc hacc; exact hacc
  | cons p ps ih =>
    intro acc _
    rw [List.foldl_cons]
    exact ih _ (Nat.mod_lt _ (by rw [plainMod_eq]; omega))

theorem sumOfSquares_lt (seq : List Nat) (target : List Int) :
    sumOfSquares seq target < plainMod := by
  rw [sumOfSquares]
  exact sumOfSquares_foldl_lt target _ 0 (by rw [plainMod_eq]; omega)

theorem sumOfSquares_foldl_cast (target : List Int) :
    ∀ (l : List (Nat × Nat)) (acc : Nat),
    ((l.foldl
      (fun acc p =>
        let diff := (((p.2 : Int) - target.getD p.1 0).emod plainMod).toNat
        (acc + diff * diff % plainMod) % plainMod) acc : Nat) : ZMod plainMod)
    = (acc : ZMod plainMod) +
      (((l.map (fun p => ((p.2 : Int) - target.getD p.1 0) ^ 2)).sum : Int) : ZMod plainMod) := by
  intro l
  induction l with
  | nil => intro acc; simp
  | cons p ps ih =>
    intro acc
    rw [List.foldl_cons, ih]
    have hcast : (((acc + (((p.2 : Int) - target.getD p.1 0).emod plainMod).toNat *
        (((p.2 : Int) - target.getD p.1 0).emod plainMod).toNat % plainMod) % plainMod : Nat) :
        ZMod plainMod)
        = (acc : ZMod plainMod) +
          (((p.2 : Int) - target.getD p.1 0 : Int) : ZMod plainMod) ^ 2 := by
      have hd : ((((((p.2 : Int) - target.getD p.1 0).emod plainMod).toNat : Nat)) :
          ZMod plainMod) = (((p.2 : Int) - target.getD p.1 0 : Int) : ZMod plainMod) := by
        have hnn : 0 ≤ ((p.2 : Int) - target.getD p.1 0).emod plainMod :=
          Int.emod_nonneg _ (by rw [plainMod_eq]; omega)
        have h1 : (((((p.2 : Int) - target.getD p.1 0).emod plainMod).toNat : Nat) :
            ZMod plainMod)
            = ((((p.2 : Int) - target.getD p.1 0).emod plainMod : Int) : ZMod plainMod) := by
          rw [← Int.cast_natCast, Int.toNat_of_nonneg hnn]
        rw [h1]
        exact_mod_cast ZMod.intCast_mod ((p.2 : Int) - target.getD p.1 0) plainMod
      rw [ZMod.natCast_mod, Nat.cast_add, ZMod.natCast_mod, Nat.cast_mul, hd]
      ring
    simp only [List.map_cons, List.sum_cons]
    push_cast
    rw [hcast]
    push_cast
    ring

theorem sumOfSquares_cast (seq : List Nat) (target : List Int) :
    ((sumOfSquares seq target : Nat) : ZMod plainMod)
    = (((seq.enum.map (fun p => ((p.2 : Int) - target.getD p.1 0) ^ 2)).sum : Int) :
        ZMod plainMod) := by
  rw [sumOfSquares, sumOfSquares_foldl_cast]
  simp

theorem sumOfSquares_eq_zero_iff (seq : List Nat) (target : List Int) :
    sumOfSquares seq target = 0 ↔
    (((seq.enum.map (fun p => ((p.2 : Int) - target.getD p.1 0) ^ 2)).sum : Int) :
      ZMod plainMod) = 0 := by
  constructor
  · intro h
    rw [← sumOfSquares_cast, h]
    simp
  · intro h
    have hc := sumOfSquares_cast seq target
    rw [h] at hc
    have hdvd : plainMod ∣ sumOfSquares seq target :=
      (ZMod.natCast_zmod_eq_zero_iff_dvd _ _).mp hc
    exact Nat.eq_zero_of_dvd_of_lt hdvd (sumOfSquares_lt seq target)

theorem mem_enum_fst_lt {l : List α} {p : Nat × α} (hp : p ∈ l.enum) : p.1 < l.length := by
  have := List.mem_enum_iff_get?.mp hp
  have h2 := List.get?_eq_some.mp this
  exact h2.1

theorem mem_enum_getD {l : List Nat} {p : Nat × Nat} (hp : p ∈ l.enum) : l.getD p.1 0 = p.2 := by
  have := List.mem_enum_iff_get?.mp hp
  have h2 := List.get?_eq_some.mp this
  obtain ⟨hlt, hv⟩ := h2
  rw [List.getD_eq_getElem _ _ hlt]
  exact hv

theorem sumOfSquares_self (seq : List Nat) :
    sumOfSquares seq (seq.map Int.ofNat) = 0 := by
  rw [sumOfSquares_eq_zero_iff]
  have hz : ∀ x ∈ seq.enum.map
      (fun p => ((p.2 : Int) - (seq.map Int.ofNat).getD p.1 0) ^ 2), x = 0 := by
    intro x hx
    obtain ⟨p, hp, rfl⟩ := List.mem_map.mp hx
    have hlt : p.1 < seq.length := mem_enum_fst_lt hp
    have hD : (seq.map Int.ofNat).getD p.1 0 = (p.2 : Int) := by
      rw [List.getD_eq_getElem _ _ (by simpa using hlt), List.getElem_map]
      have hg := mem_enum_getD hp
      rw [List.getD_eq_getElem _ _ hlt] at hg
      rw [hg]
      rfl
    rw [hD]
    ring
  rw [List.sum_eq_zero hz]
  simp

theorem sumOfSquares_congr (seq : List Nat) (t1 t2 : List Int)
    (h : ∀ i, i < seq.length → t1.getD i 0 = t2.getD i 0) :
    sumOfSquares seq t1 = sumOfSquares seq t2 := by
  have hmem : ∀ p ∈ seq.enum, t1.getD p.1 0 = t2.getD p.1 0 :=
    fun p hp => h p.1 (mem_enum_fst_lt hp)
  have H : ∀ (l : List (Nat × Nat)) (acc : Nat),
      (∀ p ∈ l, t1.getD p.1 0 = t2.getD p.1 0) →
      l.foldl
        (fun acc p =>
          let diff := (((p.2 : Int) - t1.getD p.1 0).emod plainMod).toNat
          (acc + diff * diff % plainMod) % plainMod) acc
      = l.foldl
        (fun acc p =>
          let diff := (((p.2 : Int) - t2.getD p.1 0).emod plainMod).toNat
          (acc + diff * diff % plainMod) % plainMod) acc := by
    intro l
    induction l with
    | nil => intro acc _; rfl
    | cons p ps ih =>
      intro acc hm
      rw [List.foldl_cons, List.foldl_cons]
      have hp := hm p (List.mem_cons_self p ps)
      rw [hp]
      exact ih _ (fun q hq => hm q (List.mem_cons_of_mem p hq))
  rw [sumOfSquares, sumOfSquares]
  exact H seq.enum 0 hmem

theorem toBytesBE_lt : ∀ (n p : Nat), ∀ b ∈ toBytesBE n p, b < 256 := by
  intro n
  induction n with
  | zero => intro p b hb; simp [toBytesBE] at hb
  | succ n ih =>
    intro p b hb
    rw [toBytesBE, List.mem_append] at hb
    rcases hb with h | h
    · exact ih _ b h
    · simp only [List.mem_singleton] at h
      subst h
      exact Nat.mod_lt _ (by omega)

theorem toBytesBE_length : ∀ (n p : Nat), (toBytesBE n p).length = n := by
  intro n
  induction n with
  | zero => intro p; rfl
  | succ n ih => intro p; simp [toBytesBE, ih]

theorem fromBytesBE_toBytesBE : ∀ (n p : Nat), fromBytesBE (toBytesBE n p) = p % 256 ^ n := by
  intro n
  induction n with
  | zero => intro p; simp [toBytesBE, fromBytesBE, Nat.mod_one]
  | succ n ih =>
    intro p
    rw [toBytesBE, fromBytesBE, List.foldl_append]
    have h1 : (toBytesBE n (p / 256)).foldl (fun a b => a * 256 + b) 0 = p / 256 % 256 ^ n := by
      rw [← fromBytesBE, ih]
    rw [h1]
    simp only [List.foldl_cons, List.foldl_nil]
    have h2 : p % (256 * 256 ^ n) = p % 256 + 256 * (p / 256 % 256 ^ n) := Nat.mod_mul
    have h3 : (256 : Nat) ^ (n + 1) = 256 * 256 ^ n := by ring
    rw [h3, h2]
    ring

theorem getD_lt_of_all_lt {l : List Nat} (h : ∀ b ∈ l, b < 256) (j : Nat) : l.getD j 0 < 256 := by
  rcases Nat.lt_or_ge j l.length with hj | hj
  · rw [List.getD_eq_getElem _ _ hj]
    exact h _ (List.getElem_mem hj)
  · rw [List.getD_eq_default _ _ hj]
    omega

theorem xor_byte_lt {a b : Nat} (ha : a < 256) (hb : b < 256) : a ^^^ b < 256 := by
  have h8a : a < 2 ^ 8 := by omega
  have h8b : b < 2 ^ 8 := by omega
  have := Nat.xor_lt_two_pow h8a h8b
  omega

theorem xor_xor_cancel (a b : Nat) : (a ^^^ b) ^^^ b = a := by
  rw [Nat.xor_assoc, Nat.xor_self, Nat.xor_zero]

theorem enum_map_enum_map (l : List Nat) (g h : Nat → Nat → Nat) :
    ((l.enum.map (fun p => g p.1 p.2)).enum.map (fun p => h p.1 p.2))
      = l.enum.map (fun p => h p.1 (g p.1 p.2)) := by
  apply List.ext_getElem
  · simp
  · intro i h1 h2
    simp [List.getElem_enum]

theorem enum_map_snd_eq (l : List Nat) : l.enum.map (fun p => p.2) = l := by
  exact List.enum_map_snd l

theorem toString_int_ofNat (n : Nat) : toString (Int.ofNat n) = toString n := rfl

theorem map_mod_eq_self {l : List Nat} (h : ∀ x ∈ l, x < plainMod) :
    l.map (· % plainMod) = l := by
  have h2 : l.map (· % plainMod) = l.map id :=
    List.map_congr_left (fun x hx => Nat.mod_eq_of_lt (h x hx))
  rw [h2, List.map_id]

theorem snd_mem_of_mem_enum {l : List Nat} {p : Nat × Nat} (hp : p ∈ l.enum) : p.2 ∈ l := by
  have hlt := mem_enum_fst_lt hp
  have hg := mem_enum_getD hp
  rw [List.getD_eq_getElem _ _ hlt] at hg
  rw [← hg]
  exact List.getElem_mem hlt

theorem generate_position_facts
    (shuffles : List (List Nat × List Nat)) (S : Nat) (s : List Nat)
    (hlen : shuffles.length = s.length)
    (hchars : ∀ c ∈ s, c ∈ alphabetCodes)
    (hshufA : ∀ pr ∈ shuffles, pr.1.Perm alphabetCodes)
    (hshufS : ∀ pr ∈ shuffles, pr.2.Perm (List.range' 1 S))
    (hS : 0 < S) (j : Nat) (hj : j < s.length) :
    (((MappingGenerator_generate shuffles S).getD j []).lookup (s.getD j 0)).isSome ∧
    1 ≤ (((MappingGenerator_generate shuffles S).getD j []).lookup (s.getD j 0)).getD 0 ∧
    (((MappingGenerator_generate shuffles S).getD j []).lookup (s.getD j 0)).getD 0 ≤ S := by
  have hjsh : j < shuffles.length := by omega
  have hjM : j < (MappingGenerator_generate shuffles S).length := by
    rw [MappingGenerator_generate, List.length_map]
    exact hjsh
  have hM : (MappingGenerator_generate shuffles S).getD j []
      = generateOneMapping (shuffles.get ⟨j, hjsh⟩).1 (shuffles.get ⟨j, hjsh⟩).2 S := by
    rw [List.getD_eq_getElem _ _ hjM]
    simp only [MappingGenerator_generate]
    rw [List.getElem_map]
    rfl
  have hmem : shuffles.get ⟨j, hjsh⟩ ∈ shuffles := List.get_mem _ _ _
  have hsj : s.getD j 0 ∈ alphabetCodes := by
    apply hchars
    rw [List.getD_eq_getElem _ _ hj]
    exact List.getElem_mem hj
  have hlenS : (shuffles.get ⟨j, hjsh⟩).2.length = S := by
    rw [(hshufS _ hmem).length_eq, List.length_range']
  obtain ⟨v, hv, hvmem⟩ :=
    generateOneMapping_total (hshufA _ hmem) hlenS hS hsj
  rw [hM, hv]
  have hrange := (hshufS _ hmem).mem_iff.mp hvmem
  rw [List.mem_range'] at hrange
  obtain ⟨i, hi, hveq⟩ := hrange
  subst hveq
  refine ⟨rfl, ?_, ?_⟩
  · simp
  · simp
    omega

theorem enum_xor_twice (l B : List Nat) :
    ((l.enum.map (fun q => q.2 ^^^ B.getD (q.1 % B.length) 0)).enum.map
      (fun q => q.2 ^^^ B.getD (q.1 % B.length) 0)) = l := by
  apply List.ext_getElem
  · simp
  · intro i h1 h2
    simp [List.getElem_enum, xor_xor_cancel]

/-- C1: Full-protocol round trip: with generated mappings, a secret string over
the alphabet, a generated prize, and well-behaved external primitives
(SHA-256 digests are 32 bytes, Reed-Solomon encode emits bytes and decoding
an unmodified codeword recovers the message), the composition
register → commit → transform → finalize → verify on the correct sequence
returns `(true, p)` for every blinder. -/
theorem C1_round_trip
    (sha : String → List Nat) (canonJson : List Mapping → String)
    (rsEncode : List Nat → List Nat) (rsDecode : Nat → List Nat → Option (List Nat))
    (shuffles : List (List Nat × List Nat)) (S : Nat) (s : List Nat)
    (salt pwSalt : String) (p : Nat) (blinder : Nat)
    (hS2 : 2 ≤ S) (hS62 : S ≤ 62)
    (hlen : shuffles.length = s.length) (hL1 : 1 ≤ s.length) (hL64 : s.length ≤ 64)
    (hchars : ∀ c ∈ s, c ∈ alphabetCodes)
    (hshufA : ∀ pr ∈ shuffles, pr.1.Perm alphabetCodes)
    (hshufS : ∀ pr ∈ shuffles, pr.2.Perm (List.range' 1 S))
    (hp : p < 2 ^ 256)
    (hsha : ∀ x, ∀ b ∈ sha x, b < 256)
    (hrsEnc : ∀ b ∈ rsEncode (toBytesBE 32 p), b < 256)
    (hrs : rsDecode 16 (rsEncode (toBytesBE 32 p)) = some (toBytesBE 32 p)) :
    ∃ reveal final target,
      verifier_transform_data (owner_register_data s)
        (verifier_commit sha canonJson salt pwSalt (MappingGenerator_generate shuffles S))
        = some reveal ∧
      owner_finalize_data sha canonJson reveal
        (verifier_commit sha canonJson salt pwSalt
          (MappingGenerator_generate shuffles S)).commitment
        (generate_prize rsEncode p) = some final ∧
      get_correct_sequence (MappingGenerator_generate shuffles S) s = some target ∧
      verifier_verify sha rsDecode final (target.map Int.ofNat) blinder = (true, p) := by
  have hS : 0 < S := by omega
  set M := MappingGenerator_generate shuffles S with hMdef
  have hMlen : M.length = s.length := by
    rw [hMdef, MappingGenerator_generate, List.length_map, hlen]
  set V := (List.range s.length).map
    (fun j => ((M.getD j []).lookup (s.getD j 0)).getD 0) with hVdef
  have hfacts := fun (j : Nat) (hj : j < s.length) =>
    generate_position_facts shuffles S s hlen hchars hshufA hshufS hS j hj
  have hVlen : V.length = s.length := by rw [hVdef, List.length_map, List.length_range]
  have hVval : ∀ x ∈ V, 1 ≤ x ∧ x ≤ S := by
    intro x hx
    obtain ⟨j, hj, rfl⟩ := List.mem_map.mp hx
    have hj2 : j < s.length := List.mem_range.mp hj
    exact ⟨(hfacts j hj2).2.1, (hfacts j hj2).2.2⟩
  have hVlt : ∀ x ∈ V, x < plainMod := by
    intro x hx
    have h2 := (hVval x hx).2
    rw [plainMod_eq]
    omega
  have hcorrect : get_correct_sequence M s = some V := by
    rw [get_correct_sequence,
      correctSeqGo_some M s 0 (by omega)
        (fun j hj => by rw [Nat.zero_add]; exact (hfacts j hj).1)]
    rw [hVdef]
    congr 1
    apply List.map_congr_left
    intro j _
    rw [Nat.zero_add]
  have htransformed :
      ((owner_register_data s).zip M).map
        (fun pr => dotProd pr.1 (alphabetCodes.map (fun c => dictGet pr.2 c 0))) = V := by
    apply List.ext_getElem
    · simp only [List.length_map, List.length_zip, owner_register_data, hMlen, hVlen,
        List.length_range]
      omega
    · intro j h1 h2
      have hjs : j < s.length := by
        simp only [List.length_map, List.length_zip, owner_register_data, hMlen] at h1
        omega
      have hjM : j < M.length := by omega
      rw [List.getElem_map, List.getElem_zip]
      simp only [owner_register_data, List.getElem_map]
      rw [dotProd_oneHot (hchars _ (List.getElem_mem hjs))
        (fun c => dictGet M[j] c 0)]
      have hVj : V.getD j 0 = ((M.getD j []).lookup (s.getD j 0)).getD 0 := by
        rw [hVdef, List.getD_eq_getElem _ _ (by rw [List.length_map, List.length_range]; omega),
          List.getElem_map, List.getElem_range]
      rw [← List.getD_eq_getElem V 0 h2, hVj, dictGet, List.getD_eq_getElem _ _ hjM,
        List.getD_eq_getElem _ _ hjs]
      apply Nat.mod_eq_of_lt
      have hb := (hfacts j hjs).2.2
      rw [List.getD_eq_getElem _ _ hjM, List.getD_eq_getElem _ _ hjs] at hb
      rw [plainMod_eq]
      omega
  have htrans : verifier_transform_data (owner_register_data s)
      (verifier_commit sha canonJson salt pwSalt M) = some ⟨V, salt, M, pwSalt⟩ := by
    rw [verifier_transform_data]
    rw [if_neg (by
      simp only [verifier_commit, owner_register_data, List.length_map, ne_eq, not_not]
      omega)]
    simp only [verifier_commit]
    congr 1
    rw [← htransformed]
  set pwStr := String.intercalate "," (V.map toString) with hpwStr
  set B := sha (pwSalt ++ pwStr) with hBdef
  set encodedBytes := rsEncode (toBytesBE 32 p) with hEnc
  set protChunks := encodedBytes.enum.map
    (fun q => q.2 ^^^ B.getD (q.1 % B.length) 0) with hProt
  have hencLt : ∀ b ∈ encodedBytes, b < 256 := hrsEnc
  have hencLtT : ∀ b ∈ encodedBytes, b < plainMod := by
    intro b hb
    have h2 := hencLt b hb
    rw [plainMod_eq]
    omega
  have hBlt : ∀ b ∈ B, b < 256 := hsha _
  have hprotLt : ∀ x ∈ protChunks, x < 256 := by
    intro x hx
    rw [hProt] at hx
    obtain ⟨q, hq, rfl⟩ := List.mem_map.mp hx
    exact xor_byte_lt (hencLt _ (snd_mem_of_mem_enum hq)) (getD_lt_of_all_lt hBlt _)
  have hprotLtT : ∀ x ∈ protChunks, x < plainMod := by
    intro x hx
    have h2 := hprotLt x hx
    rw [plainMod_eq]
    omega
  have hfinal : owner_finalize_data sha canonJson ⟨V, salt, M, pwSalt⟩
      (sha (salt ++ canonJson M)) (generate_prize rsEncode p)
      = some ⟨V, ⟨protChunks, pwSalt, 8, encodedBytes.length, 16⟩⟩ := by
    rw [owner_finalize_data]
    rw [if_neg (by simp)]
    simp only [generate_prize]
    rw [map_mod_eq_self hencLtT]
    congr 1
    refine congrArg₂ FinalPackage.mk ?_ ?_
    · exact map_mod_eq_self hVlt
    · refine congrArg₂ (fun a b => PrizeDataFinal.mk a b 8 encodedBytes.length 16) ?_ rfl
      rw [map_mod_eq_self hprotLtT]
  have hverify : verifier_verify sha rsDecode
      ⟨V, ⟨protChunks, pwSalt, 8, encodedBytes.length, 16⟩⟩ (V.map Int.ofNat) blinder
      = (true, p) := by
    have hstr : String.intercalate "," ((V.map Int.ofNat).map toString) = pwStr := by
      rw [hpwStr, List.map_map]
      congr 1
    have hchunks : verifyUnprotectedChunks sha
        ⟨V, ⟨protChunks, pwSalt, 8, encodedBytes.length, 16⟩⟩ (V.map Int.ofNat)
        = encodedBytes := by
      show protChunks.enum.map
        (fun q => q.2 ^^^
          (sha (pwSalt ++ String.intercalate "," ((V.map Int.ofNat).map toString))).getD
            (q.1 %
              (sha (pwSalt ++ String.intercalate "," ((V.map Int.ofNat).map toString))).length)
            0) = encodedBytes
      rw [hstr, ← hBdef, hProt, enum_xor_twice]
    rw [verifier_verify]
    simp only []
    rw [sumOfSquares_self V]
    rw [if_neg (by simp)]
    rw [hchunks]
    rw [if_pos (by
      rw [List.all_eq_true]
      intro x hx
      exact decide_eq_true (Nat.lt_irrefl 256 |> fun _ => hencLt x hx))]
    rw [hEnc, hrs]
    show (true, fromBytesBE (toBytesBE 32 p)) = (true, p)
    rw [fromBytesBE_toBytesBE]
    have h256 : (256 : Nat) ^ 32 = 2 ^ 256 := by norm_num
    rw [h256, Nat.mod_eq_of_lt hp]
  refine ⟨⟨V, salt, M, pwSalt⟩, ⟨V, ⟨protChunks, pwSalt, 8, encodedBytes.length, 16⟩⟩, V,
    htrans, hfinal, hcorrect, hverify⟩

/-- Witness for C1 at a concrete instance: secret `"a"`, two segments, the
identity shuffles, prize 5, and concrete instances of the external
primitives. -/
theorem C1_round_trip_witness :
    ∃ reveal final target,
      verifier_transform_data (owner_register_data [97])
        (verifier_commit (fun _ => List.replicate 32 7) (fun ms => toString ms.length)
          "s" "p" (MappingGenerator_generate [(alphabetCodes, [1, 2])] 2))
        = some reveal ∧
      owner_finalize_data (fun _ => List.replicate 32 7) (fun ms => toString ms.length)
        reveal
        (verifier_commit (fun _ => List.replicate 32 7) (fun ms => toString ms.length)
          "s" "p" (MappingGenerator_generate [(alphabetCodes, [1, 2])] 2)).commitment
        (generate_prize (fun l => l ++ List.replicate 16 0) 5) = some final ∧
      get_correct_sequence (MappingGenerator_generate [(alphabetCodes, [1, 2])] 2) [97]
        = some target ∧
      verifier_verify (fun _ => List.replicate 32 7) (fun _ l => some (l.take 32)) final
        (target.map Int.ofNat) 12345 = (true, 5) := by
  exact C1_round_trip (fun _ => List.replicate 32 7) (fun ms => toString ms.length)
    (fun l => l ++ List.replicate 16 0) (fun _ l => some (l.take 32))
    [(alphabetCodes, [1, 2])] 2 [97] "s" "p" 5 12345
    (by omega) (by omega) (by decide) (by decide) (by decide)
    (by decide)
    (by intro pr hpr; rw [List.mem_singleton] at hpr; rw [hpr])
    (by intro pr hpr; rw [List.mem_singleton] at hpr; rw [hpr]; decide)
    (by norm_num)
    (by intro x b hb; rw [List.eq_of_mem_replicate hb]; omega)
    (by decide)
    (by decide)

/-- C2 counterexample: a concrete final package whose blinded sum decrypts
to zero (the candidate matches) while Reed-Solomon decoding fails
(`rsDecode` returning `none` models the `reedsolo` exception); the code
returns `(false, 0)`, not `(true, 0)` as the claim states. -/
theorem C2_counterexample :
    sumOfSquares [5] ([5] : List Int) * 3 % plainMod = 0 ∧
    (fun (_ : Nat) (_ : List Nat) => (none : Option (List Nat))) 16
      (verifyUnprotectedChunks (fun _ => List.replicate 32 0)
        ⟨[5], ⟨List.replicate 48 0, "", 8, 48, 16⟩⟩ [5]) = none ∧
    verifier_verify (fun _ => List.replicate 32 0)
      (fun _ _ => (none : Option (List Nat)))
      ⟨[5], ⟨List.replicate 48 0, "", 8, 48, 16⟩⟩ [5] 3 = (false, 0) ∧
    verifier_verify (fun _ => List.replicate 32 0)
      (fun _ _ => (none : Option (List Nat)))
      ⟨[5], ⟨List.replicate 48 0, "", 8, 48, 16⟩⟩ [5] 3 ≠ (true, 0) := by
  refine ⟨by decide, rfl, by decide, by decide⟩

/-- C2 (amended): in `verifier_verify`, when the blinded sum of squares
decrypts to zero but the Reed-Solomon step fails (the decoder raises, or a
chunk does not fit in a byte), the function returns `(false, 0)` — the
`except` handler reports the failure as a non-match with a zero prize. -/
theorem C2_rs_failure_returns_false_zero
    (sha : String → List Nat) (rsDecode : Nat → List Nat → Option (List Nat))
    (pkg : FinalPackage) (target : List Int) (blinder : Nat)
    (hmatch : sumOfSquares pkg.sequence_data target * blinder % plainMod = 0)
    (hfail : rsDecode pkg.prize_data.rs_parity_bytes
        (verifyUnprotectedChunks sha pkg target) = none ∨
      ¬ (verifyUnprotectedChunks sha pkg target).all (· < 256)) :
    verifier_verify sha rsDecode pkg target blinder = (false, 0) := by
  rw [verifier_verify]
  simp only []
  rw [hmatch]
  rw [if_neg (by simp)]
  rcases hfail with hf | hf
  · by_cases hall : (verifyUnprotectedChunks sha pkg target).all (· < 256)
    · rw [if_pos hall, hf]
    · rw [if_neg hall]
  · rw [if_neg hf]

/-- Witness for the amended C2 at the counterexample's concrete input. -/
theorem C2_rs_failure_witness :
    verifier_verify (fun _ => List.replicate 32 0)
      (fun _ _ => (none : Option (List Nat)))
      ⟨[5], ⟨List.replicate 48 0, "", 8, 48, 16⟩⟩ [5] 3 = (false, 0) :=
  C2_rs_failure_returns_false_zero (fun _ => List.replicate 32 0)
    (fun _ _ => none) ⟨[5], ⟨List.replicate 48 0, "", 8, 48, 16⟩⟩ [5] 3
    (by decide) (Or.inl rfl)

theorem mem_enumFrom_fst_ge : ∀ (l : List Nat) (k : Nat) (p : Nat × Nat),
    p ∈ l.enumFrom k → k ≤ p.1 := by
  intro l
  induction l with
  | nil => intro k p hp; simp at hp
  | cons x xs ih =>
    intro k p hp
    rw [List.enumFrom_cons, List.mem_cons] at hp
    rcases hp with h | h
    · subst h; exact le_rfl
    · have := ih (k + 1) p h
      omega

theorem enumFrom_sum_single {R : Type} [AddCommMonoid R] :
    ∀ (seq : List Nat) (k : Nat) (F : Nat × Nat → R) (i : Nat),
    k ≤ i → i < k + seq.length →
    (∀ p ∈ seq.enumFrom k, p.1 ≠ i → F p = 0) →
    ((seq.enumFrom k).map F).sum = F (i, seq.getD (i - k) 0) := by
  intro seq
  induction seq with
  | nil => intro k F i h1 h2 _; simp at h2; omega
  | cons x xs ih =>
    intro k F i h1 h2 h0
    rw [List.enumFrom_cons, List.map_cons, List.sum_cons]
    by_cases hk : k = i
    · subst hk
      have hrest : ((xs.enumFrom (k + 1)).map F).sum = 0 := by
        apply List.sum_eq_zero
        intro y hy
        obtain ⟨q, hq, rfl⟩ := List.mem_map.mp hy
        exact h0 q (by rw [List.enumFrom_cons]; exact List.mem_cons_of_mem _ hq)
          (by have := mem_enumFrom_fst_ge xs (k + 1) q hq; omega)
      rw [hrest, Nat.sub_self, List.getD_cons_zero, add_zero]
    · have hx0 : F (k, x) = 0 :=
        h0 (k, x) (by rw [List.enumFrom_cons]; exact List.mem_cons_self _ _) hk
      rw [hx0, zero_add]
      have hik : i - k = (i - (k + 1)) + 1 := by omega
      rw [ih (k + 1) F i (by omega) (by simp only [List.length_cons] at h2; omega)
        (fun q hq hne => h0 q (by rw [List.enumFrom_cons]; exact List.mem_cons_of_mem _ hq) hne)]
      rw [hik, List.getD_cons_succ]

theorem sumOfSquares_single_diff_ne_zero
    (seq : List Nat) (target : List Int) (i : Nat) (hi : i < seq.length)
    (hdiff : ¬ ((plainMod : Int) ∣ ((seq.getD i 0 : Int) - target.getD i 0)))
    (hsame : ∀ j, j < seq.length → j ≠ i →
      (plainMod : Int) ∣ ((seq.getD j 0 : Int) - target.getD j 0)) :
    sumOfSquares seq target ≠ 0 := by
  haveI : Fact (Nat.Prime plainMod) := ⟨by rw [plainMod_eq]; norm_num⟩
  intro h0
  rw [sumOfSquares_eq_zero_iff] at h0
  have hmap : (((seq.enum.map
      (fun p => ((p.2 : Int) - target.getD p.1 0) ^ 2)).sum : Int) : ZMod plainMod)
      = ((seq.enum.map (fun p => ((p.2 : Int) - target.getD p.1 0) ^ 2)).map
          (fun x : Int => (x : ZMod plainMod))).sum :=
    map_list_sum (Int.castRingHom (ZMod plainMod)) _
  rw [hmap, List.map_map] at h0
  have hsingle : ((seq.enum).map
      ((fun x : Int => (x : ZMod plainMod)) ∘
        (fun p => ((p.2 : Int) - target.getD p.1 0) ^ 2))).sum
      = ((((seq.getD i 0 : Int) - target.getD i 0) ^ 2 : Int) : ZMod plainMod) := by
    rw [List.enum_eq_enumFrom]
    rw [enumFrom_sum_single seq 0 _ i (Nat.zero_le i) (by omega)]
    · rw [Nat.sub_zero]
      simp only [Function.comp_apply]
    · intro p hp hne
      rw [← List.enum_eq_enumFrom] at hp
      have hplt := mem_enum_fst_lt hp
      have hpget := mem_enum_getD hp
      have hdvd := hsame p.1 hplt hne
      rw [hpget] at hdvd
      simp only [Function.comp_apply]
      have hsq : ((((p.2 : Int) - target.getD p.1 0) ^ 2 : Int) : ZMod plainMod)
          = ((((p.2 : Int) - target.getD p.1 0) : Int) : ZMod plainMod) ^ 2 := by
        push_cast
        ring
      rw [hsq, (ZMod.intCast_zmod_eq_zero_iff_dvd _ _).mpr hdvd]
      ring
  rw [hsingle] at h0
  have hz : (((seq.getD i 0 : Int) - target.getD i 0 : Int) : ZMod plainMod) ≠ 0 := by
    intro hzz
    exact hdiff (by exact_mod_cast (ZMod.intCast_zmod_eq_zero_iff_dvd _ _).mp hzz)
  have : ((((seq.getD i 0 : Int) - target.getD i 0) ^ 2 : Int) : ZMod plainMod)
      = ((((seq.getD i 0 : Int) - target.getD i 0) : Int) : ZMod plainMod) ^ 2 := by
    push_cast
    ring
  rw [this] at h0
  exact pow_ne_zero 2 hz h0

/-- Concrete instances of the external primitives used by counterexamples:
an all-zero digest, a length-based canonical serialization, a systematic
encoder padding 16 zero parity bytes, and a decoder taking the first 32
bytes. -/
def cexSha : String → List Nat := fun _ => List.replicate 32 0

/-- See `cexSha`. -/
def cexJson : List Mapping → String := fun ms => toString ms.length

/-- See `cexSha`. -/
def cexEncode : List Nat → List Nat := fun l => l ++ List.replicate 16 0

/-- See `cexSha`. -/
def cexDecode : Nat → List Nat → Option (List Nat) := fun _ l => some (l.take 32)

/-- Two-position mappings produced by the generator from identity shuffles
with two segments. -/
def cexMappings : List Mapping :=
  MappingGenerator_generate [(alphabetCodes, [1, 2]), (alphabetCodes, [1, 2])] 2

/-- C3 counterexample: for the secret `"aa"` the correct sequence is `[1, 1]`;
the candidate `[2, 257]` differs from it at position 0 (and 1), yet its
squared differences sum to `1 + 65536 ≡ 0 (mod 65537)`, so the blinded check
passes for every blinder and `verifier_verify` returns `(true, _)` — here
for the two distinct blinders 1 and 2, refuting rejection probability
`≥ 1 − 1/(plain_modulus−1)`. -/
theorem C3_counterexample :
    get_correct_sequence cexMappings [97, 97] = some [1, 1] ∧
    (([2, 257] : List Int).getD 0 0 ≠ ((([1, 1] : List Nat).getD 0 0 : Nat) : Int)) ∧
    verifier_transform_data (owner_register_data [97, 97])
      (verifier_commit cexSha cexJson "s" "p" cexMappings)
      = some ⟨[1, 1], "s", cexMappings, "p"⟩ ∧
    owner_finalize_data cexSha cexJson ⟨[1, 1], "s", cexMappings, "p"⟩
      (verifier_commit cexSha cexJson "s" "p" cexMappings).commitment
      (generate_prize cexEncode 0)
      = some ⟨[1, 1], ⟨List.replicate 48 0, "p", 8, 48, 16⟩⟩ ∧
    verifier_verify cexSha cexDecode ⟨[1, 1], ⟨List.replicate 48 0, "p", 8, 48, 16⟩⟩
      ([2, 257] : List Int) 1 = (true, 0) ∧
    verifier_verify cexSha cexDecode ⟨[1, 1], ⟨List.replicate 48 0, "p", 8, 48, 16⟩⟩
      ([2, 257] : List Int) 2 = (true, 0) := by
  refine ⟨by decide, by decide, by decide, by decide, by decide, by decide⟩

/-- C3 (amended): mismatch rejection holds *modulo the plain modulus*: if the
candidate differs from the sequence encrypted in the final package at exactly
one position `i < L` modulo `plain_modulus` (positions beyond the candidate's
length compare against 0), the blinded check fails and `verifier_verify`
returns `(false, 0)` for **every** blinder in `{1..plain_modulus−1}` —
rejection probability 1 ≥ 1 − 1/(plain_modulus−1).  (A candidate differing
only by multiples of 65537, or at several positions whose squared
differences cancel modulo 65537 — e.g. `1² + 256²` — passes the check, as
the counterexample shows.) -/
theorem C3_single_mismatch_rejected
    (sha : String → List Nat) (rsDecode : Nat → List Nat → Option (List Nat))
    (pkg : FinalPackage) (target : List Int) (blinder : Nat)
    (hb1 : 1 ≤ blinder) (hb2 : blinder < plainMod)
    (i : Nat) (hi : i < pkg.sequence_data.length)
    (hdiff : ¬ ((plainMod : Int) ∣ ((pkg.sequence_data.getD i 0 : Int) - target.getD i 0)))
    (hsame : ∀ j, j < pkg.sequence_data.length → j ≠ i →
      (plainMod : Int) ∣ ((pkg.sequence_data.getD j 0 : Int) - target.getD j 0)) :
    verifier_verify sha rsDecode pkg target blinder = (false, 0) := by
  haveI : Fact (Nat.Prime plainMod) := ⟨by rw [plainMod_eq]; norm_num⟩
  have hS := sumOfSquares_single_diff_ne_zero pkg.sequence_data target i hi hdiff hsame
  have hne : sumOfSquares pkg.sequence_data target * blinder % plainMod ≠ 0 := by
    intro h0
    have hcast : ((sumOfSquares pkg.sequence_data target * blinder % plainMod : Nat) :
        ZMod plainMod) = 0 := by
      rw [h0]
      simp
    rw [ZMod.natCast_mod, Nat.cast_mul] at hcast
    have hSz : ((sumOfSquares pkg.sequence_data target : Nat) : ZMod plainMod) ≠ 0 := by
      intro hz
      have hdvd := (ZMod.natCast_zmod_eq_zero_iff_dvd _ _).mp hz
      exact hS (Nat.eq_zero_of_dvd_of_lt hdvd (sumOfSquares_lt _ _))
    have hbz : ((blinder : Nat) : ZMod plainMod) ≠ 0 := by
      intro hz
      have hdvd := (ZMod.natCast_zmod_eq_zero_iff_dvd _ _).mp hz
      have := Nat.eq_zero_of_dvd_of_lt hdvd hb2
      omega
    exact mul_ne_zero hSz hbz hcast
  rw [verifier_verify]
  simp only []
  rw [if_pos hne]

/-- Witness for the amended C3: candidate `[2, 1]` differs from the encrypted
sequence `[1, 1]` at exactly position 0, and is rejected with blinder 7. -/
theorem C3_single_mismatch_witness :
    verifier_verify cexSha cexDecode ⟨[1, 1], ⟨List.replicate 48 0, "p", 8, 48, 16⟩⟩
      ([2, 1] : List Int) 7 = (false, 0) := by
  apply C3_single_mismatch_rejected cexSha cexDecode
    ⟨[1, 1], ⟨List.replicate 48 0, "p", 8, 48, 16⟩⟩ ([2, 1] : List Int) 7
    (by omega) (by decide) 0 (by decide)
  · decide
  · decide

theorem buildMappingDict_keys (segNums : List Nat) (chunks : List (List Nat))
    (h : chunks.length ≤ segNums.length) :
    (buildMappingDict segNums chunks).map Prod.fst = chunks.flatten := by
  rw [buildMappingDict, List.map_flatten, List.map_map]
  congr 1
  have h2 : ∀ p ∈ segNums.zip chunks,
      (List.map Prod.fst ∘ fun p : Nat × List Nat => p.2.map (fun c => (c, p.1))) p = p.2 := by
    intro p _
    simp only [Function.comp_apply, List.map_map]
    have : (Prod.fst ∘ fun c => (c, p.1)) = fun c : Nat => c := rfl
    rw [this, List.map_id']
  rw [List.map_congr_left h2]
  exact List.map_snd_zip _ _ h

/-- C4 counterexample: the generator with 10 segments and the identity
shuffles (a legal output of `random.shuffle`) assigns 10 characters to
segment 1 but only 5 to segment 10 — cardinalities differing by 5, not at
most 1 — and the server's extension with 10 segments leaves 5 characters
(among them the space, code 32) assigned to no segment at all. -/
theorem C4_counterexample :
    (alphabetCodes.filter
      (fun c => dictGet (generateOneMapping alphabetCodes (List.range' 1 10) 10) c 0 == 1)).length
      = 10 ∧
    (alphabetCodes.filter
      (fun c => dictGet (generateOneMapping alphabetCodes (List.range' 1 10) 10) c 0 == 10)).length
      = 5 ∧
    ¬ (10 - 5 ≤ (1 : Nat)) ∧
    (alphabetCodes.filter
      (fun c => ((extendOneMapping alphabetCodes (List.range' 1 10) 10).lookup c).isNone)).length
      = 5 ∧
    ((extendOneMapping alphabetCodes (List.range' 1 10) 10).lookup 32) = none := by
  refine ⟨by decide, by decide, by decide, by decide, by decide⟩

/-- C4 (amended): every mapping produced by `MappingGenerator.generate`
assigns every character of the 95-character alphabet to exactly one segment
(the character occurs exactly once as a key, with a value among the shuffled
segment numbers); but segment cardinalities can differ by more than one, and
the server's `extend_mapping_to_length` can leave characters unassigned (see
the counterexample). -/
theorem C4_generator_assigns_every_char
    (shuffled segNums : List Nat) (S : Nat)
    (hsh : shuffled.Perm alphabetCodes) (hlen : segNums.length = S) (hS : 0 < S)
    (c : Nat) (hc : c ∈ alphabetCodes) :
    (generateOneMapping shuffled segNums S).countP (fun q => q.1 == c) = 1 ∧
    ∃ v, (generateOneMapping shuffled segNums S).lookup c = some v ∧ v ∈ segNums := by
  have hlen95 : shuffled.length = 95 := by
    rw [hsh.length_eq]
    decide
  have hps : 0 < (shuffled.length + S - 1) / S := Nat.div_pos (by omega) hS
  have hchlen : (chunksOf ((shuffled.length + S - 1) / S) shuffled).length ≤ segNums.length := by
    rw [chunksOf_length _ (Nat.pos_iff_ne_zero.mp hps), hlen]
    exact ceil_chunks_le shuffled.length S hS (by omega)
  refine ⟨?_, generateOneMapping_total hsh hlen hS hc⟩
  have hkeys : (generateOneMapping shuffled segNums S).map Prod.fst = shuffled := by
    rw [generateOneMapping]
    rw [buildMappingDict_keys _ _ hchlen]
    exact chunksOf_flatten _ (Nat.pos_iff_ne_zero.mp hps) shuffled
  have hcount : (generateOneMapping shuffled segNums S).countP (fun q => q.1 == c)
      = shuffled.count c := by
    conv_rhs => rw [← hkeys]
    rw [List.count, List.countP_map]
    rfl
  rw [hcount]
  apply List.count_eq_one_of_mem
  · exact hsh.nodup_iff.mpr (by decide)
  · exact hsh.mem_iff.mpr hc

/-- Witness for the amended C4 at the identity shuffles with 10 segments and
the character `'a'` (code 97). -/
theorem C4_generator_assigns_witness :
    (generateOneMapping alphabetCodes (List.range' 1 10) 10).countP (fun q => q.1 == 97) = 1 ∧
    ∃ v, (generateOneMapping alphabetCodes (List.range' 1 10) 10).lookup 97 = some v ∧
      v ∈ List.range' 1 10 :=
  C4_generator_assigns_every_char alphabetCodes (List.range' 1 10) 10
    (List.Perm.refl _) (by decide) (by decide) 97 (by decide)

/-- C5 (code bug): at `original_mapping` of length 2 and `target_length = 1`,
`extend_mapping_to_length` returns `original_mapping[:target_length]` — a
truncated list of length 1 — although its own comment says "return as-is"
and the spec requires `|M'| = max(target, |M|) = 2`. -/
theorem C5_truncation_at_failing_input :
    (extend_mapping_to_length [[(97, 1)], [(97, 2)]] 1 2 (fun _ => ([], []))).length = 1 ∧
    extend_mapping_to_length [[(97, 1)], [(97, 2)]] 1 2 (fun _ => ([], [])) = [[(97, 1)]] ∧
    (extend_mapping_to_length [[(97, 1)], [(97, 2)]] 1 2 (fun _ => ([], []))).length
      ≠ max 1 ([[(97, 1)], [(97, 2)]] : List Mapping).length := by
  refine ⟨by decide, by decide, by decide⟩

/-- Extract the issued `key_index` from a challenge response. -/
def issuedKeyIndex : ChallengeResult → Option Int
  | .issued _ _ _ ki _ => some ki
  | .noPackage => none

/-- An empty challenge package used by the server-level scenarios. -/
def noPrizePkg : FinalPackage := ⟨[], ⟨[], "", 8, 0, 16⟩⟩

/-- Degenerate shuffles for the server-level scenarios. -/
def c6Shuffles : Nat → List Nat × List Nat := fun _ => ([], [])

/-- A store reached by submitting two packages for user 1, key 1, with
`key_index` 1 and 2. -/
def c6State : ServerState :=
  (submit_challenge_data
    (submit_challenge_data initialState 1 1 1 11 21 [] 2 c6Shuffles noPrizePkg).2
    1 1 2 12 22 [] 2 c6Shuffles noPrizePkg).2

/-- C6 counterexample: with two unused packages (`key_index` 1 and 2) for one
user and key, two consecutive challenge issuances both return the package
with `key_index` 1 — the second is not strictly higher, because issuance
never marks the file used (only a successful verification does). -/
theorem C6_counterexample :
    Reachable c6State ∧
    c6State.files.map (fun f => (f.key_index, f.is_used)) = [(1, false), (2, false)] ∧
    issuedKeyIndex (get_authentication_challenge c6State 1 1 30 0 101).1 = some 1 ∧
    issuedKeyIndex (get_authentication_challenge
      (get_authentication_challenge c6State 1 1 30 0 101).2 1 1 30 0 102).1 = some 1 := by
  refine ⟨?_, by decide, by decide, by decide⟩
  exact Reachable.submit 1 1 2 12 22 [] 2 c6Shuffles noPrizePkg
    (Reachable.submit 1 1 1 11 21 [] 2 c6Shuffles noPrizePkg Reachable.init)

theorem pickStep_none (g : FileRec) : pickStep none g = some g := rfl

theorem pickStep_some (b g : FileRec) :
    pickStep (some b) g = if g.key_index < b.key_index then some g else some b := rfl

theorem pickMin_go :
    ∀ (l : List FileRec) (acc : Option FileRec) (f : FileRec),
    l.foldl pickStep acc = some f →
    (f ∈ l ∨ acc = some f) ∧ (∀ g ∈ l, f.key_index ≤ g.key_index) ∧
      (∀ b, acc = some b → f.key_index ≤ b.key_index) := by
  intro l
  induction l with
  | nil =>
    intro acc f h
    simp only [List.foldl_nil] at h
    refine ⟨Or.inr h, by simp, ?_⟩
    intro b hb
    rw [h] at hb
    cases hb
    exact le_rfl
  | cons g gs ih =>
    intro acc f h
    rw [List.foldl_cons] at h
    rcases acc with _ | b
    · rw [pickStep_none] at h
      obtain ⟨hmem, hmin, hacc⟩ := ih (some g) f h
      have hfg : f.key_index ≤ g.key_index := hacc g rfl
      refine ⟨?_, ?_, ?_⟩
      · rcases hmem with hm | hm
        · exact Or.inl (List.mem_cons_of_mem g hm)
        · cases hm
          exact Or.inl (List.mem_cons_self _ _)
      · intro g2 hg2
        rcases List.mem_cons.mp hg2 with h2 | h2
        · subst h2
          exact hfg
        · exact hmin g2 h2
      · intro b hb
        simp at hb
    · rw [pickStep_some] at h
      by_cases hlt : g.key_index < b.key_index
      · rw [if_pos hlt] at h
        obtain ⟨hmem, hmin, hacc⟩ := ih (some g) f h
        have hfg : f.key_index ≤ g.key_index := hacc g rfl
        refine ⟨?_, ?_, ?_⟩
        · rcases hmem with hm | hm
          · exact Or.inl (List.mem_cons_of_mem g hm)
          · cases hm
            exact Or.inl (List.mem_cons_self _ _)
        · intro g2 hg2
          rcases List.mem_cons.mp hg2 with h2 | h2
          · subst h2
            exact hfg
          · exact hmin g2 h2
        · intro b2 hb2
          cases hb2
          omega
      · rw [if_neg hlt] at h
        obtain ⟨hmem, hmin, hacc⟩ := ih (some b) f h
        have hfb : f.key_index ≤ b.key_index := hacc b rfl
        have hfg : f.key_index ≤ g.key_index := by omega
        refine ⟨?_, ?_, ?_⟩
        · rcases hmem with hm | hm
          · exact Or.inl (List.mem_cons_of_mem g hm)
          · exact Or.inr hm
        · intro g2 hg2
          rcases List.mem_cons.mp hg2 with h2 | h2
          · subst h2
            exact hfg
          · exact hmin g2 h2
        · intro b2 hb2
          cases hb2
          exact hfb

theorem selectUnusedFile_spec (files : List FileRec) (uid key : Nat) (f : FileRec)
    (h : selectUnusedFile files uid key = some f) :
    f ∈ files ∧ f.user_id = uid ∧ f.key_name = key ∧ f.is_used = false ∧
      ∀ g ∈ files, g.user_id = uid → g.key_name = key → g.is_used = false →
        f.key_index ≤ g.key_index := by
  rw [selectUnusedFile] at h
  obtain ⟨hmem, hmin, -⟩ := pickMin_go _ none f h
  have hmem2 : f ∈ files.filter (fun f => f.user_id == uid && f.key_name == key && !f.is_used) := by
    rcases hmem with hm | hm
    · exact hm
    · cases hm
  obtain ⟨hfin, hpred⟩ := List.mem_filter.mp hmem2
  simp only [Bool.and_eq_true, beq_iff_eq, Bool.not_eq_true'] at hpred
  refine ⟨hfin, hpred.1.1, hpred.1.2, hpred.2, ?_⟩
  intro g hg hgu hgk hgused
  apply hmin
  rw [List.mem_filter]
  exact ⟨hg, by simp [hgu, hgk, hgused]⟩

/-- Between two states, each stored file is unchanged except that its
`is_used` flag may have been switched on. -/
def filesEvolve (fs fs' : List FileRec) : Prop :=
  List.Forall₂ (fun f f' => f' = f ∨ f' = { f with is_used := true }) fs fs'

/-- A server step that is not a submission (challenge issuance or
verification). -/
inductive NoSubmitStep : ServerState → ServerState → Prop
  | challenge (st : ServerState) (uid keyName : Nat) (timeoutMinutes now : Int) (token : Nat) :
      NoSubmitStep st (get_authentication_challenge st uid keyName timeoutMinutes now token).2
  | verify (st : ServerState) (sha : String → List Nat)
      (rsDecode : Nat → List Nat → Option (List Nat)) (token : Nat) (target : List Int)
      (blinder : Nat) (now : Int) :
      NoSubmitStep st (verify_solution sha rsDecode st token target blinder now).2

theorem filesEvolve_refl (fs : List FileRec) : filesEvolve fs fs := by
  induction fs with
  | nil => exact List.Forall₂.nil
  | cons f fs ih => exact List.Forall₂.cons (Or.inl rfl) ih

theorem fileRec_used_idem (f : FileRec) :
    ({ { f with is_used := true } with is_used := true } : FileRec)
      = { f with is_used := true } := rfl

theorem filesEvolve_trans {fs1 fs2 fs3 : List FileRec}
    (h12 : filesEvolve fs1 fs2) (h23 : filesEvolve fs2 fs3) : filesEvolve fs1 fs3 := by
  induction h12 generalizing fs3 with
  | nil =>
    cases h23
    exact List.Forall₂.nil
  | cons hr hrest ih =>
    cases h23 with
    | cons hr2 hrest2 =>
      refine List.Forall₂.cons ?_ (ih hrest2)
      rcases hr with h | h <;> rcases hr2 with h2 | h2 <;> subst h <;> subst h2
      · exact Or.inl rfl
      · exact Or.inr rfl
      · exact Or.inr rfl
      · exact Or.inr (fileRec_used_idem _)

theorem filesEvolve_map_used (fs : List FileRec) (fid : Nat) :
    filesEvolve fs (fs.map (markFileUsed fid)) := by
  induction fs with
  | nil => exact List.Forall₂.nil
  | cons f fs ih =>
    refine List.Forall₂.cons ?_ ih
    rw [markFileUsed]
    by_cases hf : (f.fid == fid) = true
    · rw [if_pos hf]
      exact Or.inr rfl
    · rw [if_neg hf]
      exact Or.inl rfl

theorem challenge_files_eq (st : ServerState) (uid keyName : Nat)
    (timeoutMinutes now : Int) (token : Nat) :
    (get_authentication_challenge st uid keyName timeoutMinutes now token).2.files
      = st.files := by
  rw [get_authentication_challenge]
  rcases h : selectUnusedFile st.files uid keyName with _ | f <;> simp [h]

theorem verify_files_evolve (sha : String → List Nat)
    (rsDecode : Nat → List Nat → Option (List Nat)) (st : ServerState) (token : Nat)
    (target : List Int) (blinder : Nat) (now : Int) :
    filesEvolve st.files (verify_solution sha rsDecode st token target blinder now).2.files := by
  rw [verify_solution]
  split
  · exact filesEvolve_refl _
  · split
    · exact filesEvolve_refl _
    · split
      · exact filesEvolve_refl _
      · split
        · exact filesEvolve_refl _
        · split
          · exact filesEvolve_refl _
          · dsimp only
            split
            · exact filesEvolve_map_used _ _
            · exact filesEvolve_refl _

theorem forall₂_mem_right {r : FileRec → FileRec → Prop} :
    ∀ {fs fs' : List FileRec}, List.Forall₂ r fs fs' → ∀ f' ∈ fs', ∃ f ∈ fs, r f f' := by
  intro fs fs' h
  induction h with
  | nil => intro f' hf'; simp at hf'
  | cons hr hrest ih =>
    intro f' hf'
    rcases List.mem_cons.mp hf' with h2 | h2
    · subst h2
      exact ⟨_, List.mem_cons_self _ _, hr⟩
    · obtain ⟨f, hf, hrf⟩ := ih f' h2
      exact ⟨f, List.mem_cons_of_mem _ hf, hrf⟩

theorem noSubmit_filesEvolve {st st' : ServerState}
    (h : Relation.ReflTransGen NoSubmitStep st st') : filesEvolve st.files st'.files := by
  induction h with
  | refl => exact filesEvolve_refl _
  | tail hab hbc ih =>
    refine filesEvolve_trans ih ?_
    cases hbc with
    | challenge uid keyName timeoutMinutes now token =>
      rw [challenge_files_eq]
      exact filesEvolve_refl _
    | verify sha rsDecode token target blinder now =>
      exact verify_files_evolve sha rsDecode _ token target blinder now

/-- C6 (amended): challenge issuance returns the unused package with minimal
`key_index` for `(user_id, key_name)` and does not consume it; across any
sequence of issuances and verifications (the only steps that change
`is_used`, and only from unused to used on verification success), the issued
`key_index` is non-decreasing — it is *equal* until the earlier package is
consumed by a successful verification, as the counterexample shows, and
strictly ascending only through consumption. -/
theorem C6_issuance_minimal_and_monotone :
    (∀ (st : ServerState) (uid keyName : Nat) (timeoutMinutes now : Int) (token : Nat)
        (f : FileRec),
      selectUnusedFile st.files uid keyName = some f →
      (get_authentication_challenge st uid keyName timeoutMinutes now token).1
        = .issued token f.unencrypted_mapping f.fid f.key_index (now + timeoutMinutes * 60) ∧
      f ∈ st.files ∧ f.user_id = uid ∧ f.key_name = keyName ∧ f.is_used = false ∧
      (∀ g ∈ st.files, g.user_id = uid → g.key_name = keyName → g.is_used = false →
        f.key_index ≤ g.key_index)) ∧
    (∀ (st st' : ServerState) (uid keyName : Nat) (f f' : FileRec),
      Relation.ReflTransGen NoSubmitStep st st' →
      selectUnusedFile st.files uid keyName = some f →
      selectUnusedFile st'.files uid keyName = some f' →
      f.key_index ≤ f'.key_index) := by
  constructor
  · intro st uid keyName timeoutMinutes now token f hsel
    obtain ⟨hmem, hu, hk, hused, hmin⟩ := selectUnusedFile_spec st.files uid keyName f hsel
    refine ⟨?_, hmem, hu, hk, hused, hmin⟩
    rw [get_authentication_challenge, hsel]
  · intro st st' uid keyName f f' hrtc hsel hsel'
    obtain ⟨-, -, -, -, hmin⟩ := selectUnusedFile_spec st.files uid keyName f hsel
    obtain ⟨hmem', hu', hk', hused', -⟩ := selectUnusedFile_spec st'.files uid keyName f' hsel'
    have hev := noSubmit_filesEvolve hrtc
    obtain ⟨g, hg, hrel⟩ := forall₂_mem_right hev f' hmem'
    rcases hrel with h | h
    · subst h
      exact hmin f' hg hu' hk' hused'
    · rw [h] at hused'
      cases hused'

/-- The first file stored in `c6State`. -/
def c6File1 : FileRec :=
  { fid := 0, user_id := 1, key_name := 1, key_index := 1, file_hash := 11,
    mapping_sequence_hash := 21,
    unencrypted_mapping := extend_mapping_to_length [] 64 2 c6Shuffles,
    challenge_package := noPrizePkg, is_used := false }

/-- Witness for the amended C6 at the concrete two-package store. -/
theorem C6_issuance_witness :
    (get_authentication_challenge c6State 1 1 30 0 101).1
      = .issued 101 c6File1.unencrypted_mapping c6File1.fid c6File1.key_index (0 + 30 * 60) ∧
    c6File1.key_index ≤ c6File1.key_index := by
  have hsel : selectUnusedFile c6State.files 1 1 = some c6File1 := by decide
  exact ⟨(C6_issuance_minimal_and_monotone.1 c6State 1 1 30 0 101 c6File1 hsel).1,
    C6_issuance_minimal_and_monotone.2 c6State c6State 1 1 c6File1 c6File1
      Relation.ReflTransGen.refl hsel hsel⟩

/-- Does some session with the given `sid` carry the given
`mapping_sequence_hash`? (the join condition of the single-unlock check). -/
def sessionHasHash (sessions : List SessionRec) (sid h : Nat) : Bool :=
  sessions.any (fun s => s.sid == sid && s.mapping_sequence_hash == h)

/-- Number of successful attempts recorded against sessions with the given
`mapping_sequence_hash`. -/
def successCount (attempts : List AttemptRec) (sessions : List SessionRec) (h : Nat) : Nat :=
  (attempts.filter (fun a => a.was_successful && sessionHasHash sessions a.session_id h)).length

/-- Structural well-formedness of the store: session ids are below the
counter and distinct, and attempts reference existing sessions. -/
def WFStore (st : ServerState) : Prop :=
  (∀ s ∈ st.sessions, s.sid < st.nextId) ∧
  st.sessions.Pairwise (fun a b => a.sid ≠ b.sid) ∧
  (∀ a ∈ st.attempts, ∃ s ∈ st.sessions, s.sid = a.session_id)

/-- The single-unlock invariant I3 together with well-formedness. -/
def StoreInv (st : ServerState) : Prop :=
  WFStore st ∧ ∀ h, successCount st.attempts st.sessions h ≤ 1

theorem existsSuccessForHash_eq (st : ServerState) (h : Nat) :
    existsSuccessForHash st h
      = st.attempts.any (fun a => a.was_successful && sessionHasHash st.sessions a.session_id h) := by
  rfl

theorem successCount_zero_of_not_exists (st : ServerState) (h : Nat)
    (hex : existsSuccessForHash st h = false) :
    successCount st.attempts st.sessions h = 0 := by
  rw [existsSuccessForHash_eq] at hex
  rw [successCount, List.length_eq_zero, List.filter_eq_nil_iff]
  intro a ha
  exact List.any_eq_false.mp hex a ha

theorem pairwise_sid_unique {l : List SessionRec}
    (hp : l.Pairwise (fun a b => a.sid ≠ b.sid)) :
    ∀ a ∈ l, ∀ b ∈ l, a.sid = b.sid → a = b := by
  induction l with
  | nil => intro a ha; simp at ha
  | cons x xs ih =>
    intro a ha b hb heq
    have hp2 := List.pairwise_cons.mp hp
    rcases List.mem_cons.mp ha with h1 | h1 <;> rcases List.mem_cons.mp hb with h2 | h2
    · rw [h1, h2]
    · subst h1
      exact absurd heq (hp2.1 b h2)
    · subst h2
      exact absurd heq.symm (hp2.1 a h1)
    · exact ih hp2.2 a h1 b h2 heq

theorem inv_of_parts (st st' : ServerState)
    (hs : st'.sessions = st.sessions) (ha : st'.attempts = st.attempts)
    (hn : st.nextId ≤ st'.nextId) (h : StoreInv st) : StoreInv st' := by
  obtain ⟨⟨hb, hp, hd⟩, hinv⟩ := h
  refine ⟨⟨?_, ?_, ?_⟩, ?_⟩
  · intro s hs2
    rw [hs] at hs2
    have := hb s hs2
    omega
  · rw [hs]
    exact hp
  · intro a ha2
    rw [ha] at ha2
    rw [hs]
    exact hd a ha2
  · intro h2
    rw [ha, hs]
    exact hinv h2

theorem inv_submit (st : ServerState) (uid keyName : Nat) (keyIndex : Int)
    (fileHash mappingHash : Nat) (rawMapping : List Mapping) (segments : Nat)
    (shuffles : Nat → List Nat × List Nat) (pkg : FinalPackage) (h : StoreInv st) :
    StoreInv (submit_challenge_data st uid keyName keyIndex fileHash mappingHash
      rawMapping segments shuffles pkg).2 := by
  rw [submit_challenge_data]
  split
  · exact h
  · split
    · exact h
    · exact inv_of_parts st _ rfl rfl (by dsimp only; omega) h

theorem inv_challenge (st : ServerState) (uid keyName : Nat) (timeoutMinutes now : Int)
    (token : Nat) (h : StoreInv st) :
    StoreInv (get_authentication_challenge st uid keyName timeoutMinutes now token).2 := by
  rw [get_authentication_challenge]
  rcases hsel : selectUnusedFile st.files uid keyName with _ | f
  · exact h
  · dsimp only
    obtain ⟨⟨hb, hp, hd⟩, hinv⟩ := h
    refine ⟨⟨?_, ?_, ?_⟩, ?_⟩
    · intro s hs2
      rcases List.mem_append.mp hs2 with h2 | h2
      · exact Nat.lt_succ_of_lt (hb s h2)
      · rw [List.mem_singleton] at h2
        subst h2
        exact Nat.lt_succ_self st.nextId
    · rw [List.pairwise_append]
      refine ⟨hp, List.pairwise_singleton _ _, ?_⟩
      intro a ha b hbm
      rw [List.mem_singleton] at hbm
      subst hbm
      exact Nat.ne_of_lt (hb a ha)
    · intro a ha2
      obtain ⟨s, hsm, hsid⟩ := hd a ha2
      exact ⟨s, List.mem_append_left _ hsm, hsid⟩
    · intro h2
      rw [successCount, List.filter_congr ?hcongr]
      · exact hinv h2
      case hcongr =>
        intro a ha2
        obtain ⟨s, hsm, hsid⟩ := hd a ha2
        have hlt : a.session_id < st.nextId := by
          have := hb s hsm
          omega
        congr 1
        rw [sessionHasHash, sessionHasHash, List.any_append]
        have hnew : (st.nextId == a.session_id) = false := by
          rw [beq_eq_false_iff_ne]
          omega
        simp only [List.any_cons, List.any_nil, Bool.or_false, hnew, Bool.false_and]

theorem updateSessionOnAttempt_sid (k : Nat) (b : Bool) (s : SessionRec) :
    (updateSessionOnAttempt k b s).sid = s.sid := by
  rw [updateSessionOnAttempt]
  split
  · split <;> rfl
  · rfl

theorem updateSessionOnAttempt_hash (k : Nat) (b : Bool) (s : SessionRec) :
    (updateSessionOnAttempt k b s).mapping_sequence_hash = s.mapping_sequence_hash := by
  rw [updateSessionOnAttempt]
  split
  · split <;> rfl
  · rfl

theorem sessionHasHash_map_upd (sessions : List SessionRec) (k : Nat) (b : Bool)
    (sid h : Nat) :
    sessionHasHash (sessions.map (updateSessionOnAttempt k b)) sid h
      = sessionHasHash sessions sid h := by
  rw [sessionHasHash, sessionHasHash, List.any_map]
  congr 1
  funext s
  simp only [Function.comp_apply, updateSessionOnAttempt_sid, updateSessionOnAttempt_hash]

theorem inv_verify (sha : String → List Nat) (rsDecode : Nat → List Nat → Option (List Nat))
    (st : ServerState) (token : Nat) (target : List Int) (blinder : Nat) (now : Int)
    (h : StoreInv st) :
    StoreInv (verify_solution sha rsDecode st token target blinder now).2 := by
  rw [verify_solution]
  rcases hfind : findSession st token with _ | sess
  · exact h
  · dsimp only
    by_cases hv : is_session_valid sess now = true
    · rw [if_neg (by simp [hv])]
      by_cases hrl : is_rate_limited st sess.user_id now = true
      · rw [if_pos hrl]
        exact h
      · rw [if_neg hrl]
        by_cases hex : existsSuccessForHash st sess.mapping_sequence_hash = true
        · rw [if_pos hex]
          exact h
        · rw [if_neg hex]
          rcases hff : st.files.find? (fun g => g.fid == sess.data_file_id) with _ | f
          · rw [hff]
            exact h
          · rw [hff]
            dsimp only
            have hex2 : existsSuccessForHash st sess.mapping_sequence_hash = false := by
              simpa using hex
            rw [findSession] at hfind
            have hsessmem : sess ∈ st.sessions := List.mem_of_find?_eq_some hfind
            obtain ⟨⟨hb, hp, hd⟩, hinv⟩ := h
            set r := verifier_verify sha rsDecode f.challenge_package target blinder with hrdef
            refine ⟨⟨?_, ?_, ?_⟩, ?_⟩
            · intro s' hs'
              have hs'2 : s' ∈ st.sessions.map (updateSessionOnAttempt sess.sid r.1) := hs'
              obtain ⟨s, hsm, rfl⟩ := List.mem_map.mp hs'2
              rw [updateSessionOnAttempt_sid]
              exact hb s hsm
            · have hmap : (st.sessions.map (updateSessionOnAttempt sess.sid r.1)).Pairwise
                  (fun a b => a.sid ≠ b.sid) := by
                rw [List.pairwise_map]
                exact hp.imp (fun hab => by
                  rw [updateSessionOnAttempt_sid, updateSessionOnAttempt_sid]
                  exact hab)
              exact hmap
            · intro a ha2
              have ha3 : a ∈ st.attempts ++ [⟨sess.sid, sess.user_id, r.1, now⟩] := ha2
              rcases List.mem_append.mp ha3 with h2 | h2
              · obtain ⟨s, hsm, hsid⟩ := hd a h2
                exact ⟨updateSessionOnAttempt sess.sid r.1 s, List.mem_map_of_mem _ hsm,
                  by rw [updateSessionOnAttempt_sid]; exact hsid⟩
              · rw [List.mem_singleton] at h2
                subst h2
                exact ⟨updateSessionOnAttempt sess.sid r.1 sess,
                  List.mem_map_of_mem _ hsessmem, by rw [updateSessionOnAttempt_sid]⟩
            · intro h2
              show successCount (st.attempts ++ [⟨sess.sid, sess.user_id, r.1, now⟩])
                (st.sessions.map (updateSessionOnAttempt sess.sid r.1)) h2 ≤ 1
              rw [successCount, List.filter_append, List.length_append]
              have hfiltold : st.attempts.filter
                  (fun a => a.was_successful &&
                    sessionHasHash (st.sessions.map (updateSessionOnAttempt sess.sid r.1))
                      a.session_id h2)
                  = st.attempts.filter
                    (fun a => a.was_successful && sessionHasHash st.sessions a.session_id h2) := by
                apply List.filter_congr
                intro a _
                rw [sessionHasHash_map_upd]
              rw [hfiltold]
              have hpred : (((⟨sess.sid, sess.user_id, r.1, now⟩ : AttemptRec).was_successful &&
                  sessionHasHash (st.sessions.map (updateSessionOnAttempt sess.sid r.1))
                    (⟨sess.sid, sess.user_id, r.1, now⟩ : AttemptRec).session_id h2))
                  = (r.1 && sessionHasHash st.sessions sess.sid h2) := by
                rw [sessionHasHash_map_upd]
              by_cases hnew : (r.1 && sessionHasHash st.sessions sess.sid h2) = true
              · have hr1 : r.1 = true := (Bool.and_eq_true _ _).mp hnew |>.1
                have hhh : sessionHasHash st.sessions sess.sid h2 = true :=
                  (Bool.and_eq_true _ _).mp hnew |>.2
                obtain ⟨s2, hs2mem, hs2p⟩ := List.any_eq_true.mp hhh
                rw [Bool.and_eq_true, beq_iff_eq, beq_iff_eq] at hs2p
                have hseq : s2 = sess :=
                  pairwise_sid_unique hp s2 hs2mem sess hsessmem hs2p.1
                have hh2 : h2 = sess.mapping_sequence_hash := by
                  rw [← hs2p.2, hseq]
                have hzero := successCount_zero_of_not_exists st sess.mapping_sequence_hash hex2
                rw [successCount] at hzero
                rw [hh2, hzero]
                have hone : (([⟨sess.sid, sess.user_id, r.1, now⟩] : List AttemptRec).filter
                    (fun a => a.was_successful &&
                      sessionHasHash (st.sessions.map (updateSessionOnAttempt sess.sid r.1))
                        a.session_id sess.mapping_sequence_hash)).length ≤ 1 :=
                  List.length_filter_le _ _
                omega
              · rw [List.filter_cons, List.filter_nil]
                rw [if_neg (by rw [hpred]; exact hnew)]
                simp only [List.length_nil, Nat.add_zero]
                exact hinv h2
    · rw [if_pos hv]
      exact h

theorem inv_init : StoreInv initialState := by
  refine ⟨⟨?_, ?_, ?_⟩, ?_⟩
  · intro s hs
    simp [initialState] at hs
  · simp [initialState]
  · intro a ha
    simp [initialState] at ha
  · intro h2
    simp [StoreInv, successCount, initialState]

theorem reachable_storeInv (st : ServerState) (h : Reachable st) : StoreInv st := by
  induction h with
  | init => exact inv_init
  | submit uid keyName keyIndex fileHash mappingHash rawMapping segments shuffles pkg _ ih =>
      exact inv_submit _ uid keyName keyIndex fileHash mappingHash rawMapping segments
        shuffles pkg ih
  | challenge uid keyName timeoutMinutes now token _ ih =>
      exact inv_challenge _ uid keyName timeoutMinutes now token ih
  | verify sha rsDecode token target blinder now _ ih =>
      exact inv_verify sha rsDecode _ token target blinder now ih

/-- Hash primitive for the C7 scenario (the packages carry no prize chunks,
so the keystream is never consulted). -/
def c7Sha : String → List Nat := fun _ => []

/-- Reed-Solomon decode for the C7 scenario: decoding the empty chunk list
succeeds with no bytes. -/
def c7Decode : Nat → List Nat → Option (List Nat) := fun _ _ => some []

/-- `c6State` after issuing a challenge session (token 101) on file 0. -/
def c7State1 : ServerState := (get_authentication_challenge c6State 1 1 30 0 101).2

/-- `c7State1` after issuing a second session (token 102) on the same file. -/
def c7StateB : ServerState := (get_authentication_challenge c7State1 1 1 30 0 102).2

/-- `c7StateB` after a successful verification on token 101. -/
def c7State2 : ServerState := (verify_solution c7Sha c7Decode c7StateB 101 [] 1 0).2

/-- The second session as it stands in `c7State2`. -/
def c7Sess3 : SessionRec :=
  { sid := 3, session_token := 102, data_file_id := 0, user_id := 1,
    mapping_sequence_hash := 21, expires_at := 1800, is_verified := false,
    verification_attempts := 0, max_attempts := 3 }

/-- C7 counterexample: in `c7State2` a successful attempt exists for
`mapping_sequence_hash` 21 and the session with token 101 still references
that hash, yet a further `verify_solution` on token 101 returns
`sessionClosed`, not `alreadyUnlocked` — the session-validity check runs
before the single-unlock check, and the successful attempt itself closed the
session. -/
theorem C7_counterexample :
    Reachable c7State2 ∧
    existsSuccessForHash c7State2 21 = true ∧
    (findSession c7State2 101).map (fun s => s.mapping_sequence_hash) = some 21 ∧
    (verify_solution c7Sha c7Decode c7State2 101 [] 1 0).1 = .sessionClosed ∧
    (verify_solution c7Sha c7Decode c7State2 101 [] 1 0).1 ≠ .alreadyUnlocked := by
  refine ⟨?_, by decide, by decide, by decide, by decide⟩
  exact Reachable.verify c7Sha c7Decode 101 [] 1 0
    (Reachable.challenge 1 1 30 0 102
      (Reachable.challenge 1 1 30 0 101
        (Reachable.submit 1 1 2 12 22 [] 2 c6Shuffles noPrizePkg
          (Reachable.submit 1 1 1 11 21 [] 2 c6Shuffles noPrizePkg Reachable.init))))

/-- **C7.** Corrected single-unlock.  The unconditional claim fails (see the
counterexample: a closed or rate-limited session answers first), but (i) on a
still-valid session of a non-rate-limited user, a prior success for the
session's `mapping_sequence_hash` makes `verify_solution` return
`alreadyUnlocked` with the store unchanged, and (ii) the invariant half
holds: every reachable store carries at most one successful attempt per
`mapping_sequence_hash`. -/
theorem C7_single_unlock :
    (∀ (sha : String → List Nat) (rsDecode : Nat → List Nat → Option (List Nat))
      (st : ServerState) (token : Nat) (target : List Int) (blinder : Nat) (now : Int)
      (sess : SessionRec),
      findSession st token = some sess →
      is_session_valid sess now = true →
      is_rate_limited st sess.user_id now = false →
      existsSuccessForHash st sess.mapping_sequence_hash = true →
      verify_solution sha rsDecode st token target blinder now = (.alreadyUnlocked, st)) ∧
    (∀ st : ServerState, Reachable st →
      ∀ h : Nat, successCount st.attempts st.sessions h ≤ 1) := by
  constructor
  · intro sha rsDecode st token target blinder now sess hfind hv hrl hex
    rw [verify_solution, hfind]
    dsimp only
    rw [if_neg (by simp [hv]), if_neg (by simp [hrl]), if_pos hex]
  · intro st hre h
    exact (reachable_storeInv st hre).2 h

/-- Witness for the amended C7: in `c7State2` the still-open session with
token 102 references hash 21, for which a success exists, and the call
returns `alreadyUnlocked`; the reachable state carries at most one success
for hash 21. -/
theorem C7_single_unlock_witness :
    verify_solution c7Sha c7Decode c7State2 102 [] 1 0 = (.alreadyUnlocked, c7State2) ∧
    successCount c7State2.attempts c7State2.sessions 21 ≤ 1 :=
  ⟨C7_single_unlock.1 c7Sha c7Decode c7State2 102 [] 1 0 c7Sess3
      (by decide) (by decide) (by decide) (by decide),
    C7_single_unlock.2 c7State2
      (Reachable.verify c7Sha c7Decode 101 [] 1 0
        (Reachable.challenge 1 1 30 0 102
          (Reachable.challenge 1 1 30 0 101
            (Reachable.submit 1 1 2 12 22 [] 2 c6Shuffles noPrizePkg
              (Reachable.submit 1 1 1 11 21 [] 2 c6Shuffles noPrizePkg Reachable.init)))))
      21⟩

/-- A session for the C9 rate-limit scenario (user 5, token 7). -/
def c9Sess : SessionRec :=
  { sid := 0, session_token := 7, data_file_id := 0, user_id := 5,
    mapping_sequence_hash := 9, expires_at := 100, is_verified := false,
    verification_attempts := 0, max_attempts := 3 }

/-- A failed attempt by user 5 at time 0. -/
def c9Attempt : AttemptRec :=
  { session_id := 0, user_id := 5, was_successful := false, attempted_at := 0 }

/-- A successful attempt by user 5 at time 0. -/
def c9SuccAttempt : AttemptRec :=
  { session_id := 0, user_id := 5, was_successful := true, attempted_at := 0 }

/-- A store in which user 5 has 20 recent failed attempts and one open
session. -/
def c9State : ServerState :=
  { files := [], sessions := [c9Sess], attempts := List.replicate 20 c9Attempt,
    nextId := 1 }

/-- **C9.** Rate limit: (i) whenever the session token resolves to a
still-valid session whose user has accumulated at least `attemptsPerHour`
(= 20) recent failed attempts, `verify_solution` answers `rateLimited` and
leaves the store unchanged; (ii) appending a successful attempt never
changes `count_recent_verification_attempts`, so successes do not consume
the budget. -/
theorem C9_rate_limit :
    (∀ (sha : String → List Nat) (rsDecode : Nat → List Nat → Option (List Nat))
      (st : ServerState) (token : Nat) (target : List Int) (blinder : Nat) (now : Int)
      (sess : SessionRec),
      findSession st token = some sess →
      is_session_valid sess now = true →
      attemptsPerHour ≤ count_recent_verification_attempts st sess.user_id now →
      verify_solution sha rsDecode st token target blinder now = (.rateLimited, st)) ∧
    (∀ (st : ServerState) (uid : Nat) (now : Int) (a : AttemptRec),
      a.was_successful = true →
      count_recent_verification_attempts { st with attempts := st.attempts ++ [a] } uid now
        = count_recent_verification_attempts st uid now) := by
  constructor
  · intro sha rsDecode st token target blinder now sess hfind hv h20
    have hrl : is_rate_limited st sess.user_id now = true := by
      simp only [is_rate_limited, decide_eq_true_eq]
      exact h20
    rw [verify_solution, hfind]
    dsimp only
    rw [if_neg (by simp [hv]), if_pos hrl]
  · intro st uid now a ha
    simp [count_recent_verification_attempts, List.filter_append, ha]

/-- Witness for C9 at the concrete store with 20 recent failures. -/
theorem C9_rate_limit_witness :
    verify_solution c7Sha c7Decode c9State 7 [] 1 0 = (.rateLimited, c9State) ∧
    count_recent_verification_attempts
        { c9State with attempts := c9State.attempts ++ [c9SuccAttempt] } 5 0
      = count_recent_verification_attempts c9State 5 0 :=
  ⟨C9_rate_limit.1 c7Sha c7Decode c9State 7 [] 1 0 c9Sess
      (by decide) (by decide) (by decide),
    C9_rate_limit.2 c9State 5 0 c9SuccAttempt (by decide)⟩

theorem toDigitsCore_length_ge (b : Nat) :
    ∀ (f n : Nat) (ds : List Char), ds.length ≤ (Nat.toDigitsCore b f n ds).length := by
  intro f
  induction f with
  | zero => intro n ds; exact Nat.le_refl _
  | succ f ih =>
    intro n ds
    show ds.length ≤ (if n / b = 0 then Nat.digitChar (n % b) :: ds
      else Nat.toDigitsCore b f (n / b) (Nat.digitChar (n % b) :: ds)).length
    split
    · exact Nat.le_succ _
    · exact Nat.le_trans (Nat.le_succ _) (ih (n / b) (Nat.digitChar (n % b) :: ds))

theorem toDigits_length_pos (b n : Nat) : 1 ≤ (Nat.toDigits b n).length := by
  show 1 ≤ (Nat.toDigitsCore b (n + 1) n []).length
  show 1 ≤ (if n / b = 0 then [Nat.digitChar (n % b)]
    else Nat.toDigitsCore b (n) (n / b) [Nat.digitChar (n % b)]).length
  split
  · exact Nat.le_refl 1
  · exact toDigitsCore_length_ge b n (n / b) [Nat.digitChar (n % b)]

theorem repr_length_pos (n : Nat) : 1 ≤ (Nat.repr n).length := by
  show 1 ≤ (Nat.toDigits 10 n).length
  exact toDigits_length_pos 10 n

theorem int_toString_length_pos (i : Int) : 1 ≤ (toString i).length := by
  cases i with
  | ofNat m => exact repr_length_pos m
  | negSucc m =>
    show 1 ≤ ("-" ++ Nat.repr (m + 1)).length
    rw [String.length_append]
    have h1 : ("-" : String).length = 1 := rfl
    omega

theorem intercalate_go_append (s y : String) :
    ∀ (as : List String) (acc : String),
    (String.intercalate.go acc s (as ++ [y])).length
      = (String.intercalate.go acc s as).length + s.length + y.length := by
  intro as
  induction as with
  | nil =>
    intro acc
    show (acc ++ s ++ y).length = acc.length + s.length + y.length
    rw [String.length_append, String.length_append]
  | cons a as ih =>
    intro acc
    show (String.intercalate.go (acc ++ s ++ a) s (as ++ [y])).length
      = (String.intercalate.go (acc ++ s ++ a) s as).length + s.length + y.length
    exact ih (acc ++ s ++ a)

theorem intercalate_append_single (y : String) (l : List String) :
    (String.intercalate "," l).length + y.length
      ≤ (String.intercalate "," (l ++ [y])).length := by
  cases l with
  | nil =>
    show ("" : String).length + y.length ≤ y.length
    have h0 : ("" : String).length = 0 := rfl
    omega
  | cons a as =>
    show (String.intercalate.go a "," as).length + y.length
      ≤ (String.intercalate.go a "," (as ++ [y])).length
    rw [intercalate_go_append]
    have h1 : ("," : String).length = 1 := rfl
    omega

theorem intercalate_le_append :
    ∀ (es l : List String),
    (String.intercalate "," l).length ≤ (String.intercalate "," (l ++ es)).length := by
  intro es
  induction es with
  | nil =>
    intro l
    rw [List.append_nil]
  | cons e es ih =>
    intro l
    have h1 := intercalate_append_single e l
    have h2 := ih (l ++ [e])
    have h4 : l ++ e :: es = (l ++ [e]) ++ es := by simp
    rw [h4]
    omega

theorem joined_length_lt (target extra : List Int) (hx : extra ≠ []) :
    (String.intercalate "," (target.map toString)).length
      < (String.intercalate "," ((target ++ extra).map toString)).length := by
  obtain ⟨e, es, rfl⟩ := List.exists_cons_of_ne_nil hx
  have h1 := intercalate_append_single (toString e) (target.map toString)
  have h2 := intercalate_le_append (es.map toString) (target.map toString ++ [toString e])
  have h3 := int_toString_length_pos e
  have h4 : (target ++ e :: es).map toString
      = (target.map toString ++ [toString e]) ++ es.map toString := by simp
  rw [h4]
  omega

/-- A final package with a two-segment sequence, used by the C10 witness. -/
def c10Pkg : FinalPackage := ⟨[1, 2], ⟨[], "s", 8, 0, 16⟩⟩

/-- **C10.** The `is_match` decision reads only the first `|sequence_data|`
entries of `target`: (i) targets agreeing there give the same
squared-difference sum (hence the same `is_match` for every blinder);
(ii) a matching target extended by arbitrary extra entries still sums to
zero; (iii) the keystream bytes are the hash of the salt concatenated with
the comma-joined rendering of the whole target; and (iv) that hashed string
genuinely changes when extra entries are appended. -/
theorem C10_match_ignores_extension :
    (∀ (pkg : FinalPackage) (t1 t2 : List Int),
      (∀ i, i < pkg.sequence_data.length → t1.getD i 0 = t2.getD i 0) →
      sumOfSquares pkg.sequence_data t1 = sumOfSquares pkg.sequence_data t2) ∧
    (∀ (pkg : FinalPackage) (target extra : List Int),
      pkg.sequence_data.length ≤ target.length →
      sumOfSquares pkg.sequence_data target = 0 →
      sumOfSquares pkg.sequence_data (target ++ extra) = 0) ∧
    (∀ (sha : String → List Nat) (pkg : FinalPackage) (target : List Int),
      verifyHashBytes sha pkg target
        = sha (pkg.prize_data.password_hash_salt
            ++ String.intercalate "," (target.map toString))) ∧
    (∀ (pkg : FinalPackage) (target extra : List Int), extra ≠ [] →
      pkg.prize_data.password_hash_salt
          ++ String.intercalate "," (target.map toString)
        ≠ pkg.prize_data.password_hash_salt
          ++ String.intercalate "," ((target ++ extra).map toString)) := by
  refine ⟨?_, ?_, ?_, ?_⟩
  · intro pkg t1 t2 h
    exact sumOfSquares_congr _ t1 t2 h
  · intro pkg target extra hlen h0
    rw [← h0]
    apply sumOfSquares_congr
    intro i hi
    exact List.getD_append _ _ _ _ (lt_of_lt_of_le hi hlen)
  · intro sha pkg target
    rfl
  · intro pkg target extra hx heq
    have hlen := congrArg String.length heq
    rw [String.length_append, String.length_append] at hlen
    have hlt := joined_length_lt target extra hx
    omega

/-- Witness for C10 on the concrete package with `sequence_data = [1, 2]`:
targets `[1,2,5]` and `[1,2,9]` agree on the first two entries and give the
same sum, `[1,2] ++ [7]` still sums to zero, and appending `[2]` to `[1]`
changes the hashed keystream string. -/
theorem C10_match_ignores_extension_witness :
    sumOfSquares c10Pkg.sequence_data [1, 2, 5]
      = sumOfSquares c10Pkg.sequence_data [1, 2, 9] ∧
    sumOfSquares c10Pkg.sequence_data ([1, 2] ++ [7]) = 0 ∧
    verifyHashBytes c7Sha c10Pkg [1]
      = c7Sha ("s" ++ String.intercalate "," (([1] : List Int).map toString)) ∧
    "s" ++ String.intercalate "," (([1] : List Int).map toString)
      ≠ "s" ++ String.intercalate "," ((([1] : List Int) ++ [2]).map toString) :=
  ⟨C10_match_ignores_extension.1 c10Pkg [1, 2, 5] [1, 2, 9] (by decide),
    C10_match_ignores_extension.2.1 c10Pkg [1, 2] [7] (by decide) (by decide),
    C10_match_ignores_extension.2.2.1 c7Sha c10Pkg [1],
    C10_match_ignores_extension.2.2.2 c10Pkg [1] [2] (by decide)⟩

theorem transform_fields (sha : String → List Nat) (canonJson : List Mapping → String)
    (salt pwSalt : String) (M : List Mapping) (registered : List (List Nat))
    (reveal : RevealPackage)
    (h : verifier_transform_data registered (verifier_commit sha canonJson salt pwSalt M)
      = some reveal) :
    reveal.salt = salt ∧ reveal.secret_mappings = M ∧ reveal.password_hash_salt = pwSalt := by
  rw [verifier_transform_data] at h
  split at h
  · exact Option.noConfusion h
  · have h2 := Option.some_inj.mp h
    rw [← h2]
    exact ⟨rfl, rfl, rfl⟩

/-- **C8.** Commitment check: (i) `owner_finalize_data` fails (returns
`none`) exactly when the digest it recomputes from the reveal package's salt
and mappings differs from the expected commitment; (ii) an unmodified reveal
package produced from the matching commit package passes the check; (iii)
replacing the mappings alone, with the new canonical JSON hashing to a
different digest, makes it fail with no final package; (iv) likewise for
replacing the salt alone. -/
theorem C8_commitment_check :
    (∀ (sha : String → List Nat) (canonJson : List Mapping → String)
      (reveal : RevealPackage) (commitment : List Nat) (prize : PrizeDataOwner),
      owner_finalize_data sha canonJson reveal commitment prize = none ↔
        sha (reveal.salt ++ canonJson reveal.secret_mappings) ≠ commitment) ∧
    (∀ (sha : String → List Nat) (canonJson : List Mapping → String)
      (salt pwSalt : String) (M : List Mapping) (registered : List (List Nat))
      (reveal : RevealPackage) (prize : PrizeDataOwner),
      verifier_transform_data registered (verifier_commit sha canonJson salt pwSalt M)
        = some reveal →
      (owner_finalize_data sha canonJson reveal
        (verifier_commit sha canonJson salt pwSalt M).commitment prize).isSome = true) ∧
    (∀ (sha : String → List Nat) (canonJson : List Mapping → String)
      (salt pwSalt : String) (M : List Mapping) (registered : List (List Nat))
      (reveal : RevealPackage) (prize : PrizeDataOwner) (M2 : List Mapping),
      verifier_transform_data registered (verifier_commit sha canonJson salt pwSalt M)
        = some reveal →
      sha (salt ++ canonJson M2) ≠ sha (salt ++ canonJson M) →
      owner_finalize_data sha canonJson { reveal with secret_mappings := M2 }
        (verifier_commit sha canonJson salt pwSalt M).commitment prize = none) ∧
    (∀ (sha : String → List Nat) (canonJson : List Mapping → String)
      (salt pwSalt : String) (M : List Mapping) (registered : List (List Nat))
      (reveal : RevealPackage) (prize : PrizeDataOwner) (salt2 : String),
      verifier_transform_data registered (verifier_commit sha canonJson salt pwSalt M)
        = some reveal →
      sha (salt2 ++ canonJson M) ≠ sha (salt ++ canonJson M) →
      owner_finalize_data sha canonJson { reveal with salt := salt2 }
        (verifier_commit sha canonJson salt pwSalt M).commitment prize = none) := by
  refine ⟨?_, ?_, ?_, ?_⟩
  · intro sha canonJson reveal commitment prize
    rw [owner_finalize_data]
    split
    · simpa using (by assumption : sha (reveal.salt ++ canonJson reveal.secret_mappings)
        ≠ commitment)
    · simpa using (by assumption : ¬ sha (reveal.salt ++ canonJson reveal.secret_mappings)
        ≠ commitment)
  · intro sha canonJson salt pwSalt M registered reveal prize htrans
    obtain ⟨hs, hm, _⟩ := transform_fields sha canonJson salt pwSalt M registered reveal htrans
    have heq : sha (reveal.salt ++ canonJson reveal.secret_mappings)
        = (verifier_commit sha canonJson salt pwSalt M).commitment := by
      rw [hs, hm]
      rfl
    rw [owner_finalize_data, if_neg (not_not_intro heq)]
    rfl
  · intro sha canonJson salt pwSalt M registered reveal prize M2 htrans hneq
    obtain ⟨hs, _, _⟩ := transform_fields sha canonJson salt pwSalt M registered reveal htrans
    have hne2 : sha (({ reveal with secret_mappings := M2 } : RevealPackage).salt
        ++ canonJson ({ reveal with secret_mappings := M2 } : RevealPackage).secret_mappings)
        ≠ (verifier_commit sha canonJson salt pwSalt M).commitment := by
      show sha (reveal.salt ++ canonJson M2) ≠ sha (salt ++ canonJson M)
      rw [hs]
      exact hneq
    rw [owner_finalize_data, if_pos hne2]
  · intro sha canonJson salt pwSalt M registered reveal prize salt2 htrans hneq
    obtain ⟨_, hm, _⟩ := transform_fields sha canonJson salt pwSalt M registered reveal htrans
    have hne2 : sha (({ reveal with salt := salt2 } : RevealPackage).salt
        ++ canonJson ({ reveal with salt := salt2 } : RevealPackage).secret_mappings)
        ≠ (verifier_commit sha canonJson salt pwSalt M).commitment := by
      show sha (salt2 ++ canonJson reveal.secret_mappings) ≠ sha (salt ++ canonJson M)
      rw [hm]
      exact hneq
    rw [owner_finalize_data, if_pos hne2]

/-- Digest primitive for the C8 witness: the character codes of the input
(injective, so distinct inputs give distinct digests). -/
def c8Sha : String → List Nat := fun s => s.toList.map Char.toNat

/-- Canonical JSON stand-in for the C8 witness. -/
def c8Canon : List Mapping → String := fun l => toString l.length

/-- The reveal package `verifier_transform_data` produces for no registered
vectors under commit salt "x" and password salt "p". -/
def c8Reveal : RevealPackage := ⟨[], "x", [], "p"⟩

/-- A trivial prize payload for the C8 witness. -/
def c8Prize : PrizeDataOwner := ⟨[], 8, 0, 16, 32, 0⟩

/-- Witness for C8 at a concrete commit/reveal pair: the untouched reveal
passes, while swapping in mappings `[[]]` or salt "y" makes
`owner_finalize_data` return `none`. -/
theorem C8_commitment_check_witness :
    (owner_finalize_data c8Sha c8Canon c8Reveal
        (verifier_commit c8Sha c8Canon "x" "p" []).commitment c8Prize).isSome = true ∧
    owner_finalize_data c8Sha c8Canon { c8Reveal with secret_mappings := [[]] }
        (verifier_commit c8Sha c8Canon "x" "p" []).commitment c8Prize = none ∧
    owner_finalize_data c8Sha c8Canon { c8Reveal with salt := "y" }
        (verifier_commit c8Sha c8Canon "x" "p" []).commitment c8Prize = none ∧
    (owner_finalize_data c8Sha c8Canon c8Reveal [] c8Prize = none ↔
      c8Sha ("x" ++ c8Canon []) ≠ ([] : List Nat)) :=
  ⟨C8_commitment_check.2.1 c8Sha c8Canon "x" "p" [] [] c8Reveal c8Prize (by decide),
    C8_commitment_check.2.2.1 c8Sha c8Canon "x" "p" [] [] c8Reveal c8Prize [[]]
      (by decide) (by decide),
    C8_commitment_check.2.2.2 c8Sha c8Canon "x" "p" [] [] c8Reveal c8Prize "y"
      (by decide) (by decide),
    C8_commitment_check.1 c8Sha c8Canon c8Reveal [] c8Prize⟩
